import Mathlib

/-!
Verification development for a multi-symbol matching engine
(per-symbol limit order books with price-time priority, FOK precheck,
stop / stop-limit / take-profit trigger evaluation, cancel, L2 snapshots
and state persistence).

The definitions below are a shallow embedding of the Python sources
(`app/orderbook.py`, `app/engine.py`, `app/models.py`, `app/utils.py`):

* `Decimal` values are modelled as `ℚ`.  The source configures exact
  decimal arithmetic (28 significant digits, ROUND_HALF_UP) and all
  operations appearing here (`+`, `-`, `min`, `*`, `/ 10000`, comparisons,
  8-dp quantization) are exact at the magnitudes the engine handles, so
  `ℚ` is a faithful model; `quantize_8` models
  `Decimal.quantize(Decimal("0.00000001"))` under ROUND_HALF_UP
  (ties away from zero).
* `SortedDict` price → level maps are modelled as lists of `PriceLevel`
  kept best-price-first: `bids` in decreasing and `asks` in increasing
  price order (the source reads bids via `peekitem(-1)` and asks via
  `peekitem(0)` of a key-ascending map, which is exactly the head of
  these lists).  `dict` fields (`order_index`, `books`,
  `order_symbol_index`, `triggers`, `recent_trades`) are association
  lists in insertion order, matching Python dict iteration order.
* The mutating `while` loop of `OrderBook.match` is split into the two
  structural recursions `consumeQueue` (FIFO inside one level) and
  `matchSide` (walk of the opposite side, best level first); the
  `last_trade_price` assignment performed at each fill is threaded
  through as the `lastp` component.
* Wall-clock timestamps, logging, websocket broadcasts and the asyncio
  tasks scheduled by `_record_trades_and_broadcast` are outside the
  shallow embedding; everything that mutates engine state synchronously
  under the per-symbol lock is modelled.  `id` minting
  (`utils.next_id`, a single shared counter for `ord_*` and `tr_*`)
  is the `next_id` field of `EngineState`.
* The single runtime assertion reachable from `submit_order`
  (`add_limit`'s `assert order.price is not None`) is modelled by the
  `Except Unit` error channel, as is the `TypeError` raised by
  `process_triggers` when a plain stop order with `stop_price = None`
  is compared against a present market price.
-/

namespace GQ

/-- `models.Side`. -/
inductive Side where
  | buy
  | sell
deriving DecidableEq, Repr

/-- `models.OrderType`. -/
inductive OrderType where
  | market
  | limit
  | ioc
  | fok
  | stop
  | stop_limit
  | take_profit
deriving DecidableEq, Repr

/-- `models.Order` (timestamps, `client_order_id` and `user_id` are
transport metadata never read by the engine logic modelled here). -/
structure Order where
  order_id : String
  symbol : String
  side : Side
  type : OrderType
  quantity : ℚ
  remaining : ℚ
  price : Option ℚ := none
  stop_price : Option ℚ := none
  take_profit_price : Option ℚ := none
deriving DecidableEq, Repr

/-- `orderbook.PriceLevel`: a price and the FIFO queue of resting orders
(head of the list = front of the deque). -/
structure PriceLevel where
  price : ℚ
  queue : List Order
deriving DecidableEq, Repr

/-- `PriceLevel.total_quantity`: sum of remaining over the queue. -/
def sumRem : List Order → ℚ
  | [] => 0
  | o :: os => o.remaining + sumRem os

/-- All orders resting on a list of levels, level order first, each
level's FIFO front first. -/
def flattenQ : List PriceLevel → List Order
  | [] => []
  | lvl :: rest => lvl.queue ++ flattenQ rest

/-- `utils.quantize_8`: quantization to 8 decimal places with
ROUND_HALF_UP (ties rounded away from zero). -/
def quantize_8 (d : ℚ) : ℚ :=
  (if 0 ≤ d then ((⌊d * 100000000 + 1/2⌋ : ℤ) : ℚ)
   else -((⌊-d * 100000000 + 1/2⌋ : ℤ) : ℚ)) / 100000000

/-- The book-side `order_index : order_id → (side, price)` entry type. -/
structure IndexEntry where
  oid : String
  side : Side
  price : ℚ
deriving DecidableEq, Repr

/-- `orderbook.OrderBook`.  `bids` best-first (descending price),
`asks` best-first (ascending price). -/
structure OrderBook where
  symbol : String
  bids : List PriceLevel
  asks : List PriceLevel
  order_index : List IndexEntry
  last_trade_price : Option ℚ := none
deriving DecidableEq, Repr

/-- One element of the list returned by `OrderBook.match`: the source
returns `(maker, taker, price, qty)` tuples; the taker is the incoming
order itself and the only maker datum later read is its id. -/
structure RawTrade where
  maker_id : String
  price : ℚ
  qty : ℚ
deriving DecidableEq, Repr

/-- `OrderBook._crossable`, specialised to the situation inside the match
loop where the best opposite level (price `p`) is known to exist: a
market order crosses any existing liquidity; a non-market order needs a
price and crosses while the cap reaches `p`. -/
def crossableAt (inc : Order) (p : ℚ) : Bool :=
  if inc.type = OrderType.market then true
  else
    match inc.price with
    | none => false
    | some ip =>
      match inc.side with
      | Side.buy => decide (p ≤ ip)
      | Side.sell => decide (ip ≤ p)

/-- Result of consuming one level's FIFO queue. -/
structure QueueRes where
  rem : ℚ
  queue : List Order
  trades : List RawTrade
  popped : List String
  lastp : Option ℚ
deriving Repr

/-- The inner part of the `OrderBook.match` loop: repeatedly fill
against the head of the level's FIFO queue at the level price `p`,
while the incoming remaining is positive.  Fully filled makers are
popped (ids collected in `popped`); `last_trade_price` is assigned at
every fill (threaded as `lastp`). -/
def consumeQueue (rem : ℚ) (p : ℚ) (lastp : Option ℚ) : List Order → QueueRes
  | [] => ⟨rem, [], [], [], lastp⟩
  | maker :: rest =>
    if 0 < rem then
      let qty := min rem maker.remaining
      let rem1 := rem - qty
      let mrem := maker.remaining - qty
      if mrem ≤ 0 then
        let r := consumeQueue rem1 p (some p) rest
        ⟨r.rem, r.queue, ⟨maker.order_id, p, qty⟩ :: r.trades,
          maker.order_id :: r.popped, r.lastp⟩
      else
        ⟨rem1, { maker with remaining := mrem } :: rest,
          [⟨maker.order_id, p, qty⟩], [], some p⟩
    else ⟨rem, maker :: rest, [], [], lastp⟩

/-- Result of matching against one side of the book. -/
structure SideRes where
  rem : ℚ
  levels : List PriceLevel
  trades : List RawTrade
  popped : List String
  lastp : Option ℚ
deriving Repr

/-- The outer part of the `OrderBook.match` loop: walk the opposite
side best level first; at each level re-check `remaining > 0 ∧
crossable`; a level whose queue becomes (or already is) empty is
removed from the book and the walk continues. -/
def matchSide (inc : Order) (rem : ℚ) (lastp : Option ℚ) : List PriceLevel → SideRes
  | [] => ⟨rem, [], [], [], lastp⟩
  | lvl :: rest =>
    if 0 < rem then
      if crossableAt inc lvl.price then
        let q := consumeQueue rem lvl.price lastp lvl.queue
        if q.queue = [] then
          let r := matchSide inc q.rem q.lastp rest
          ⟨r.rem, r.levels, q.trades ++ r.trades, q.popped ++ r.popped, r.lastp⟩
        else
          ⟨q.rem, { lvl with queue := q.queue } :: rest, q.trades, q.popped, q.lastp⟩
      else ⟨rem, lvl :: rest, [], [], lastp⟩
    else ⟨rem, lvl :: rest, [], [], lastp⟩

/-- `OrderBook.match`: match `incoming` against the opposite side,
returning the updated book, the incoming order with its final
`remaining`, and the raw trade list.  Popped makers' entries leave the
book-side `order_index`. -/
def OrderBook.matchOrder (book : OrderBook) (incoming : Order) :
    OrderBook × Order × List RawTrade :=
  match incoming.side with
  | Side.buy =>
    let r := matchSide incoming incoming.remaining book.last_trade_price book.asks
    ({ book with
        asks := r.levels,
        order_index := book.order_index.filter (fun e => ¬ r.popped.contains e.oid),
        last_trade_price := r.lastp },
      { incoming with remaining := r.rem }, r.trades)
  | Side.sell =>
    let r := matchSide incoming incoming.remaining book.last_trade_price book.bids
    ({ book with
        bids := r.levels,
        order_index := book.order_index.filter (fun e => ¬ r.popped.contains e.oid),
        last_trade_price := r.lastp },
      { incoming with remaining := r.rem }, r.trades)

/-- The side of the book an incoming order matches against. -/
def oppLevels (book : OrderBook) (s : Side) : List PriceLevel :=
  match s with
  | Side.buy => book.asks
  | Side.sell => book.bids

/-- The incoming order's own side of the book. -/
def ownLevels (book : OrderBook) (s : Side) : List PriceLevel :=
  match s with
  | Side.buy => book.bids
  | Side.sell => book.asks

/-- The book returned by `OrderBook.match`. -/
def matchBook (book : OrderBook) (incoming : Order) : OrderBook :=
  (book.matchOrder incoming).1

/-- The incoming order as returned by `OrderBook.match` (its
`remaining` decremented by the fills). -/
def matchTaker (book : OrderBook) (incoming : Order) : Order :=
  (book.matchOrder incoming).2.1

/-- The raw trades returned by `OrderBook.match`. -/
def matchTrades (book : OrderBook) (incoming : Order) : List RawTrade :=
  (book.matchOrder incoming).2.2

/-- The quantity the FOK claim speaks about: summed remaining on the
opposite side over the levels whose price is crossable under the limit
price (`price ≤ cap` for a buy, `price ≥ cap` for a sell, the cap price
itself included). -/
def fokAvail (book : OrderBook) (s : Side) (cap : ℚ) : ℚ :=
  match s with
  | Side.buy =>
    sumRem (flattenQ (book.asks.filter (fun lvl => decide (lvl.price ≤ cap))))
  | Side.sell =>
    sumRem (flattenQ (book.bids.filter (fun lvl => decide (cap ≤ lvl.price))))

/-- Keep `q` (an existing level's price) in front of a new level at
price `p`: bids are stored descending, asks ascending. -/
def keepBefore (s : Side) (q p : ℚ) : Bool :=
  match s with
  | Side.buy => decide (p < q)
  | Side.sell => decide (q < p)

/-- Sorted insertion of an order into a side's level list
(`SortedDict` assignment plus `level.queue.append`). -/
def insertLevel (s : Side) (p : ℚ) (o : Order) : List PriceLevel → List PriceLevel
  | [] => [⟨p, [o]⟩]
  | lvl :: rest =>
    if lvl.price = p then ⟨p, lvl.queue ++ [o]⟩ :: rest
    else if keepBefore s lvl.price p then lvl :: insertLevel s p o rest
    else ⟨p, [o]⟩ :: lvl :: rest

/-- `OrderBook.add_limit`.  The source asserts `order.price is not
None`; the `none` case is the assertion failure. -/
def OrderBook.add_limit (book : OrderBook) (o : Order) : Option OrderBook :=
  match o.price with
  | none => none
  | some p =>
    some (match o.side with
      | Side.buy =>
        { book with
            bids := insertLevel Side.buy p o book.bids,
            order_index := book.order_index.filter (fun e => e.oid ≠ o.order_id)
              ++ [⟨o.order_id, o.side, p⟩] }
      | Side.sell =>
        { book with
            asks := insertLevel Side.sell p o book.asks,
            order_index := book.order_index.filter (fun e => e.oid ≠ o.order_id)
              ++ [⟨o.order_id, o.side, p⟩] })

/-- `order_index` lookup (`dict.get`). -/
def lookIndex (l : List IndexEntry) (oid : String) : Option (Side × ℚ) :=
  (l.find? (fun e => e.oid = oid)).map (fun e => (e.side, e.price))

/-- `OrderBook.remove_order`: locate via `order_index`, walk the level's
FIFO removing every matching id (the source's loop keeps the last match
as the returned order), delete the level if it empties, drop the index
entry. -/
def OrderBook.remove_order (book : OrderBook) (oid : String) :
    OrderBook × Option Order :=
  match lookIndex book.order_index oid with
  | none => (book, none)
  | some (s, price) =>
    let sb := match s with | Side.buy => book.bids | Side.sell => book.asks
    match sb.find? (fun lvl => lvl.price = price) with
    | none =>
      ({ book with order_index := book.order_index.filter (fun e => e.oid ≠ oid) }, none)
    | some lvl =>
      let removed := (lvl.queue.filter (fun o => o.order_id = oid)).getLast?
      let q1 := lvl.queue.filter (fun o => o.order_id ≠ oid)
      let sb1 :=
        if q1 = [] then sb.filter (fun l => l.price ≠ price)
        else sb.map (fun l => if l.price = price then { l with queue := q1 } else l)
      let book1 : OrderBook := match s with
        | Side.buy => { book with bids := sb1 }
        | Side.sell => { book with asks := sb1 }
      let book2 : OrderBook :=
        { book1 with order_index := book1.order_index.filter (fun e => e.oid ≠ oid) }
      (book2, removed)

/-- One aggregated L2 side; `count` is the number of entries already
emitted (`len(bids)` / `len(asks)` in the source).  The source appends
a level with positive aggregated quantity and only then checks
`len >= depth`, so the emptiness test runs after the append. -/
def snapSide (depth : Nat) (count : Nat) : List PriceLevel → List (ℚ × ℚ)
  | [] => []
  | lvl :: rest =>
    let qty := sumRem lvl.queue
    if 0 < qty then
      if depth ≤ count + 1 then [(lvl.price, quantize_8 qty)]
      else (lvl.price, quantize_8 qty) :: snapSide depth (count + 1) rest
    else
      if depth ≤ count then []
      else snapSide depth count rest

/-- `OrderBook.snapshot_l2`: bids highest→lowest, asks lowest→highest
(both sides are stored best-first here). -/
def OrderBook.snapshot_l2 (book : OrderBook) (depth : Nat) :
    List (ℚ × ℚ) × List (ℚ × ℚ) :=
  (snapSide depth 0 book.bids, snapSide depth 0 book.asks)

/-! ### Engine (`app/engine.py`) -/

/-- `models.Trade` (timestamp omitted: wall-clock metadata). -/
structure Trade where
  trade_id : String
  symbol : String
  price : ℚ
  quantity : ℚ
  aggressor_side : Side
  maker_order_id : String
  taker_order_id : String
  maker_fee : ℚ
  taker_fee : ℚ
deriving DecidableEq, Repr

/-- `models.OrderRequest` (client_order_id is opaque transport metadata). -/
structure OrderRequest where
  symbol : String
  side : Side
  type : OrderType
  quantity : ℚ
  price : Option ℚ := none
  stop_price : Option ℚ := none
  take_profit_price : Option ℚ := none
deriving DecidableEq, Repr

/-- Association-list lookup (Python `dict.get`; first entry wins, and the
engine's dicts have unique keys throughout). -/
def alook {α : Type} : List (String × α) → String → Option α
  | [], _ => none
  | e :: rest, k => if e.1 = k then some e.2 else alook rest k

/-- Association-list assignment (Python `d[k] = v`: replace in place, or
append preserving insertion order). -/
def aset {α : Type} (l : List (String × α)) (k : String) (v : α) :
    List (String × α) :=
  if l.any (fun e => e.1 = k) then
    l.map (fun e => if e.1 = k then (k, v) else e)
  else l ++ [(k, v)]

/-- Association-list removal (Python `d.pop(k, None)`). -/
def aerase {α : Type} : List (String × α) → String → List (String × α)
  | [], _ => []
  | e :: rest, k => if e.1 = k then aerase rest k else e :: aerase rest k

/-- `MatchingEngine` state.  `locks`, the websocket manager and the
logger carry no order-book state and are omitted; `next_id` is the
shared `utils.next_id` counter. -/
structure EngineState where
  books : List (String × OrderBook)
  order_symbol_index : List (String × String)
  triggers : List (String × List Order)
  recent_trades : List (String × List Trade)
  next_id : Nat
  maker_rebate_bps : ℚ
  taker_fee_bps : ℚ
  recent_cap : Nat
deriving Repr

/-- A fresh engine with the constructor defaults
(`maker_rebate_bps = -1.0`, `taker_fee_bps = 2.5`,
`recent_trades_limit = 1000`; ids start at 1). -/
def initEngine : EngineState :=
  ⟨[], [], [], [], 1, -1, 5/2, 1000⟩

/-- `MatchingEngine._ensure_book`. -/
def ensure_book (st : EngineState) (symbol : String) : EngineState :=
  if (alook st.books symbol).isSome then st
  else { st with books := st.books ++ [(symbol, ⟨symbol, [], [], [], none⟩)] }

/-- `self.books[symbol]` (the engine only reads books it has ensured;
the default is unreachable from the modelled entry points). -/
def getBook (st : EngineState) (symbol : String) : OrderBook :=
  (alook st.books symbol).getD ⟨symbol, [], [], [], none⟩

/-- `self.books[symbol] = book` (in the source the book object is
mutated in place; here the updated value is written back). -/
def setBook (st : EngineState) (symbol : String) (b : OrderBook) : EngineState :=
  { st with books := aset st.books symbol b }

/-- `self.triggers[symbol]` (a `defaultdict(list)`). -/
def trigList (st : EngineState) (symbol : String) : List Order :=
  (alook st.triggers symbol).getD []

/-- `self.recent_trades[symbol]` (a `defaultdict` of bounded deques). -/
def recentList (st : EngineState) (symbol : String) : List Trade :=
  (alook st.recent_trades symbol).getD []

/-- Append to a `deque(maxlen = cap)`: at capacity the oldest entries
drop off the left. -/
def pushRecent (cap : Nat) (l : List Trade) (t : Trade) : List Trade :=
  if l.length < cap then l ++ [t] else (l ++ [t]).drop (l.length + 1 - cap)

/-- `MatchingEngine._fees`. -/
def fees (st : EngineState) (price qty : ℚ) : ℚ × ℚ :=
  (quantize_8 (price * qty * st.maker_rebate_bps / 10000),
   quantize_8 (price * qty * st.taker_fee_bps / 10000))

/-- The state-mutating part of `_record_trades_and_broadcast`: mint a
trade id, compute fees, quantize price and quantity, stamp the
aggressor side, and push onto the symbol's recent-trades ring.  (The
scheduled broadcasts and the asynchronous trigger rescan run outside
the submit critical section and are not part of this state
transition.) -/
def record_trades (st : EngineState) (symbol : String) (taker : Order) :
    List RawTrade → EngineState × List Trade
  | [] => (st, [])
  | rt :: rest =>
    let f := fees st rt.price rt.qty
    let tr : Trade :=
      ⟨"tr_" ++ toString st.next_id, symbol, quantize_8 rt.price,
        quantize_8 rt.qty, taker.side, rt.maker_id, taker.order_id, f.1, f.2⟩
    let st1 : EngineState :=
      { st with
          next_id := st.next_id + 1,
          recent_trades := aset st.recent_trades symbol
            (pushRecent st.recent_cap (recentList st symbol) tr) }
    let r := record_trades st1 symbol taker rest
    (r.1, tr :: r.2)

/-- The order types routed to the trigger store by `submit_order`. -/
def isTriggerType (t : OrderType) : Bool :=
  match t with
  | OrderType.stop => true
  | OrderType.stop_limit => true
  | OrderType.take_profit => true
  | _ => false

/-- Inner loop of `_precheck_fok` over one level's queue: subtract each
resting `remaining` from `need`, returning `true` (`.inr`) as soon as
`need ≤ 0`. -/
def fokQueue (need : ℚ) : List Order → Except Unit ℚ
  | [] => Except.ok need
  | o :: rest =>
    let need1 := need - o.remaining
    if need1 ≤ 0 then Except.error () else fokQueue need1 rest

/-- Outer loop of `_precheck_fok`: walk levels best-first, `break` at the
first level beyond the price cap, accumulate; `true` iff the early
return fired. -/
def fokLevels (beyond : ℚ → Bool) : ℚ → List PriceLevel → Bool
  | _, [] => false
  | need, lvl :: rest =>
    if beyond lvl.price then false
    else
      match fokQueue need lvl.queue with
      | Except.error _ => true
      | Except.ok need1 => fokLevels beyond need1 rest

/-- `MatchingEngine._precheck_fok`: buy walks the asks (break when
`p > price`), sell walks the bids best-first (break when `p < price`);
with `price = None` there is no cap. -/
def precheck_fok (book : OrderBook) (side : Side) (price : Option ℚ) (qty : ℚ) :
    Bool :=
  match side with
  | Side.buy =>
    fokLevels (fun p => match price with | none => false | some c => decide (c < p))
      qty book.asks
  | Side.sell =>
    fokLevels (fun p => match price with | none => false | some c => decide (p < c))
      qty book.bids

/-- The order built by `submit_order` from a request. -/
def mkOrder (st : EngineState) (req : OrderRequest) : Order :=
  ⟨"ord_" ++ toString st.next_id, req.symbol, req.side, req.type,
    req.quantity, req.quantity, req.price, req.stop_price,
    req.take_profit_price⟩

/-- `MatchingEngine.submit_order`.  No request validation is performed.
Trigger-type orders are stored and indexed immediately; FOK runs the
liquidity precheck; everything else matches and a limit residual rests
(`add_limit` raising its assertion on a missing price is the `.error`
outcome). -/
def submit_order (st : EngineState) (req : OrderRequest) :
    Except Unit (EngineState × Order × List Trade) :=
  let st1 := ensure_book st req.symbol
  let order := mkOrder st1 req
  let st2 : EngineState := { st1 with next_id := st1.next_id + 1 }
  if isTriggerType order.type then
    Except.ok
      ({ st2 with
          triggers := aset st2.triggers req.symbol
            (trigList st2 req.symbol ++ [order]),
          order_symbol_index := aset st2.order_symbol_index order.order_id
            req.symbol },
        order, [])
  else
    let book := getBook st2 req.symbol
    if order.type = OrderType.fok ∧
        precheck_fok book order.side order.price order.quantity = false then
      Except.ok (st2, order, [])
    else
      let m := book.matchOrder order
      let rec1 := record_trades (setBook st2 req.symbol m.1) req.symbol m.2.1 m.2.2
      let st3 := rec1.1
      let order1 := m.2.1
      if 0 < order1.remaining then
        if order1.type = OrderType.limit then
          match (getBook st3 req.symbol).add_limit order1 with
          | none => Except.error ()
          | some book2 =>
            Except.ok
              ({ setBook st3 req.symbol book2 with
                  order_symbol_index := aset st3.order_symbol_index
                    order1.order_id req.symbol },
                order1, rec1.2)
        else Except.ok (st3, order1, rec1.2)
      else Except.ok (st3, order1, rec1.2)

/-- Remove the first order with the given id from a trigger list
(`for i, od in enumerate(lst): ... lst.pop(i)`), returning it. -/
def removeFirstById : List Order → String → Option (List Order × Order)
  | [], _ => none
  | od :: rest, oid =>
    if od.order_id = oid then some (rest, od)
    else (removeFirstById rest oid).map (fun r => (od :: r.1, r.2))

/-- Scan the per-symbol trigger lists in insertion order for an id
(`cancel_order`'s fallback). -/
def scanCancel : List (String × List Order) → String →
    Option (List (String × List Order) × String × Order)
  | [], _ => none
  | (sym, lst) :: rest, oid =>
    match removeFirstById lst oid with
    | some r => some ((sym, r.1) :: rest, sym, r.2)
    | none => (scanCancel rest oid).map (fun r => ((sym, lst) :: r.1, r.2))

/-- `MatchingEngine.cancel_order`: resolve through
`order_symbol_index` first; only ids absent from that index reach the
trigger-list scan. -/
def cancel_order (st : EngineState) (oid : String) :
    EngineState × Option Order :=
  match alook st.order_symbol_index oid with
  | some symbol =>
    let book := getBook st symbol
    let r := book.remove_order oid
    match r.2 with
    | some od =>
      ({ setBook st symbol r.1 with
          order_symbol_index := aerase st.order_symbol_index oid }, some od)
    | none => (setBook st symbol r.1, none)
  | none =>
    match scanCancel st.triggers oid with
    | some r => ({ st with triggers := r.1 }, some r.2.2)
    | none => (st, none)

/-! ### Trigger state machine (`process_triggers`, `_submit_activated`) -/

/-- `x >= sp` where `sp` may be `None`: Python raises `TypeError`
(modelled as `.error`) when comparing a number against `None`. -/
def cmpGeE (x : ℚ) (sp : Option ℚ) : Except Unit Bool :=
  match sp with
  | none => Except.error ()
  | some s => Except.ok (decide (s ≤ x))

/-- `x <= sp` with the same `None` behaviour. -/
def cmpLeE (x : ℚ) (sp : Option ℚ) : Except Unit Bool :=
  match sp with
  | none => Except.error ()
  | some s => Except.ok (decide (x ≤ s))

/-- `(a is not None and a >= sp) or (b is not None and b >= sp)` with
Python's short-circuit evaluation (the comparison against a `None`
`sp` only raises if actually evaluated). -/
def orGeE (a b : Option ℚ) (sp : Option ℚ) : Except Unit Bool :=
  match a with
  | some x =>
    match cmpGeE x sp with
    | Except.error _ => Except.error ()
    | Except.ok true => Except.ok true
    | Except.ok false =>
      match b with
      | some y => cmpGeE y sp
      | none => Except.ok false
  | none =>
    match b with
    | some y => cmpGeE y sp
    | none => Except.ok false

/-- Same for `<=`. -/
def orLeE (a b : Option ℚ) (sp : Option ℚ) : Except Unit Bool :=
  match a with
  | some x =>
    match cmpLeE x sp with
    | Except.error _ => Except.error ()
    | Except.ok true => Except.ok true
    | Except.ok false =>
      match b with
      | some y => cmpLeE y sp
      | none => Except.ok false
  | none =>
    match b with
    | some y => cmpLeE y sp
    | none => Except.ok false

/-- Pure `≥` guard against a present threshold. -/
def condGe (x : Option ℚ) (s : ℚ) : Bool :=
  match x with
  | none => false
  | some v => decide (s ≤ v)

/-- Pure `≤` guard against a present threshold. -/
def condLe (x : Option ℚ) (s : ℚ) : Bool :=
  match x with
  | none => false
  | some v => decide (v ≤ s)

/-- One order's evaluation inside the `process_triggers` collection
loop, against the `(last, bid, ask)` observed at scan start.  Returns
the (possibly type-mutated, for triggered stop-limits) stored order and
the activation entry if the condition is met.  A plain stop with
`stop_price = None` raises `TypeError` when a comparison is reached;
stop-limit and take-profit guard their `None`s with `continue`. -/
def evalTrigger (last bid ask : Option ℚ) (od : Order) :
    Except Unit (Order × Option Order) :=
  match od.type with
  | OrderType.stop =>
    let c := match od.side with
      | Side.buy => orGeE last ask od.stop_price
      | Side.sell => orLeE last bid od.stop_price
    match c with
    | Except.error _ => Except.error ()
    | Except.ok true => Except.ok (od, some od)
    | Except.ok false => Except.ok (od, none)
  | OrderType.stop_limit =>
    match od.stop_price, od.price with
    | some sp, some _ =>
      let c := match od.side with
        | Side.buy => condGe last sp || condGe ask sp
        | Side.sell => condLe last sp || condLe bid sp
      if c then
        let od1 : Order := { od with type := OrderType.limit }
        Except.ok (od1, some od1)
      else Except.ok (od, none)
    | _, _ => Except.ok (od, none)
  | OrderType.take_profit =>
    match od.take_profit_price with
    | none => Except.ok (od, none)
    | some tp =>
      let c := match od.side with
        | Side.sell => condGe last tp || condGe ask tp
        | Side.buy => condLe last tp || condLe bid tp
      if c then Except.ok (od, some od) else Except.ok (od, none)
  | _ => Except.ok (od, none)

/-- The collection phase of `process_triggers`: evaluate every pending
order in list order, recording stop-limit type mutations in the stored
list and collecting `to_activate` in order. -/
def scanTriggers (last bid ask : Option ℚ) :
    List Order → Except Unit (List Order × List Order)
  | [] => Except.ok ([], [])
  | od :: rest =>
    match evalTrigger last bid ask od with
    | Except.error _ => Except.error ()
    | Except.ok (od1, act) =>
      match scanTriggers last bid ask rest with
      | Except.error _ => Except.error ()
      | Except.ok (rest1, acts) =>
        Except.ok (od1 :: rest1, act.toList ++ acts)

/-- Remove the first list element equal to `od`
(`list.remove`; dataclass equality is field equality). -/
def removeFirstEq : List Order → Order → List Order
  | [], _ => []
  | x :: rest, od => if x = od then rest else x :: removeFirstEq rest od

/-- `MatchingEngine._submit_activated`: match the activated order
without minting a new id; a residual rests only when it is a limit with
a price. -/
def submit_activated (st : EngineState) (symbol : String) (od : Order) :
    EngineState :=
  let book := getBook st symbol
  let m := book.matchOrder od
  let rec1 := record_trades (setBook st symbol m.1) symbol m.2.1 m.2.2
  let st2 := rec1.1
  let od1 := m.2.1
  if 0 < od1.remaining ∧ od1.type = OrderType.limit ∧ od1.price ≠ none then
    match (getBook st2 symbol).add_limit od1 with
    | some book2 =>
      { setBook st2 symbol book2 with
          order_symbol_index := aset st2.order_symbol_index od1.order_id symbol }
    | none => st2
  else st2

/-- The activation phase for one collected order: remove it from the
trigger list (first equal element, ignoring absence), convert a
price-less stop to market, and submit it internally. -/
def activateOne (st : EngineState) (symbol : String) (od : Order) :
    EngineState :=
  let st1 : EngineState :=
    { st with
        triggers := aset st.triggers symbol
          (removeFirstEq (trigList st symbol) od) }
  let od1 :=
    if od.type = OrderType.stop ∧ od.price = none then
      { od with type := OrderType.market }
    else od
  submit_activated st1 symbol od1

/-- `MatchingEngine.process_triggers`: observe `(last, bid, ask)` once,
collect all pending orders whose condition holds, then activate them in
order (later activations see earlier fills). -/
def process_triggers (st : EngineState) (symbol : String) :
    Except Unit EngineState :=
  let book := getBook st symbol
  let last := book.last_trade_price
  let bid := (book.bids.head?).map (fun l => l.price)
  let ask := (book.asks.head?).map (fun l => l.price)
  match scanTriggers last bid ask (trigList st symbol) with
  | Except.error _ => Except.error ()
  | Except.ok (newList, acts) =>
    let st1 : EngineState :=
      { st with triggers := aset st.triggers symbol newList }
    Except.ok (acts.foldl (fun s od => activateOne s symbol od) st1)

/-! ### Persistence (`save_state` / `load_state`) -/

/-- Orders resting on a book, bids side first then asks (the iteration
order of `save_state`). -/
def restingOrders (b : OrderBook) : List Order :=
  flattenQ b.bids ++ flattenQ b.asks

/-- `str(x) if x else None` applied to an optional Decimal: a present
zero is falsy in Python, so `save_state` writes `stop_price` and
`take_profit_price` of `0` as `null`. -/
def truthyOpt (x : Option ℚ) : Option ℚ :=
  match x with
  | none => none
  | some v => if v = 0 then none else some v

/-- The record `save_state` writes for one resting order.  Decimal ↔
string round-trips are exact, so serialization is the identity except
for the truthiness slip on the two trigger prices (`price` is guarded
by `is not None` and survives). -/
def savedOrder (o : Order) : Order :=
  { o with
      stop_price := truthyOpt o.stop_price,
      take_profit_price := truthyOpt o.take_profit_price }

/-- A persisted snapshot: `open_orders` and `recent_trades` by symbol. -/
structure Saved where
  open_orders : List (String × List Order)
  recent_trades : List (String × List Trade)
deriving Repr

/-- `MatchingEngine.save_state`: walk every book's levels (both sides)
collecting resting orders; trigger lists are never consulted. -/
def save_state (st : EngineState) : Saved :=
  ⟨st.books.map (fun e => (e.1, (restingOrders e.2).map savedOrder)),
    st.recent_trades⟩

/-- Reseat one loaded order (`load_state`'s per-order branch): only
`limit ∧ remaining > 0 ∧ price ≠ None` orders go back on the book (and
into `order_symbol_index`); otherwise advanced types re-enter the
trigger list; everything else is dropped. -/
def loadOrder (st : EngineState) (symbol : String) (od : Order) : EngineState :=
  if od.type = OrderType.limit ∧ 0 < od.remaining ∧ od.price ≠ none then
    match (getBook st symbol).add_limit od with
    | some b1 =>
      { setBook st symbol b1 with
          order_symbol_index := aset st.order_symbol_index od.order_id symbol }
    | none => st
  else if isTriggerType od.type then
    { st with triggers := aset st.triggers symbol (trigList st symbol ++ [od]) }
  else st

/-- `MatchingEngine.load_state` applied to a snapshot: ensure each
symbol's book, reseat its orders in saved order, then rehydrate the
recent-trade rings through the bounded push. -/
def load_state (st : EngineState) (data : Saved) : EngineState :=
  let st1 := data.open_orders.foldl
    (fun s e => (e.2.foldl (fun s2 od => loadOrder s2 e.1 od) (ensure_book s e.1)))
    st
  data.recent_trades.foldl
    (fun s e =>
      { s with
          recent_trades := aset s.recent_trades e.1
            (e.2.foldl (fun acc tr => pushRecent s.recent_cap acc tr)
              (recentList s e.1)) })
    st1

/-- Total traded quantity of a raw-trade list. -/
def sumQty : List RawTrade → ℚ
  | [] => 0
  | t :: ts => t.qty + sumQty ts

/-! ### Residency predicates -/

/-- The id rests on some price level of some book. -/
def restsSomewhere (st : EngineState) (oid : String) : Bool :=
  st.books.any (fun e => (restingOrders e.2).any (fun o => o.order_id = oid))

/-- The id is pending in some trigger list. -/
def pendsSomewhere (st : EngineState) (oid : String) : Bool :=
  st.triggers.any (fun e => e.2.any (fun o => o.order_id = oid))

/-! ### Concrete runs used in counterexamples and bug demonstrations -/

/-- Run a submit, keeping the previous state on the (assertion) error
path. -/
def subOk (st : EngineState) (req : OrderRequest) : EngineState :=
  match submit_order st req with
  | Except.ok r => r.1
  | Except.error _ => st

/-- Seed: `sell limit 1 @ 100` then `buy market 1` on symbol S — one
print at 100, maker `ord_1` fully filled and popped, empty book. -/
def sFilled : EngineState :=
  subOk (subOk initEngine ⟨"S", Side.sell, OrderType.limit, 1, some 100, none, none⟩)
    ⟨"S", Side.buy, OrderType.market, 1, none, none, none⟩

/-- After the seed, submit `buy stop 1, stop_price = 100, price = 105`
(`ord_4`) and run the trigger scan: `last = 100 ≥ 100` activates it. -/
def stopRun : Except Unit EngineState :=
  process_triggers
    (subOk sFilled ⟨"S", Side.buy, OrderType.stop, 1, some 105, some 100, none⟩)
    ("S")

/-- Seed for the take-profit run: `buy limit 2 @ 100` rests, `sell
market 1` prints at 100 leaving bid quantity 1; then submit `sell
take_profit 1, take_profit_price = 100` (no limit price) and run the
trigger scan: `last = 100 ≥ 100` activates it against the remaining
bid. -/
def tpRun : Except Unit EngineState :=
  process_triggers
    (subOk
      (subOk (subOk initEngine ⟨"T", Side.buy, OrderType.limit, 2, some 100, none, none⟩)
        ⟨"T", Side.sell, OrderType.market, 1, none, none, none⟩)
      ⟨"T", Side.sell, OrderType.take_profit, 1, none, none, some 100⟩)
    ("T")

/-- A pending `buy stop 1, stop_price = 50` on an empty book (`ord_1`). -/
def pendingStop : EngineState :=
  subOk initEngine ⟨"U", Side.buy, OrderType.stop, 1, none, some 50, none⟩

/-- Two ask levels (2 @ 100 then 3 @ 101), for exercising the match
loop. -/
def c1Book : OrderBook :=
  ⟨"S",
    [],
    [⟨100, [⟨"a", "S", Side.sell, OrderType.limit, 2, 2, some 100, none, none⟩]⟩,
     ⟨101, [⟨"b", "S", Side.sell, OrderType.limit, 3, 3, some 101, none, none⟩]⟩],
    [⟨"a", Side.sell, 100⟩, ⟨"b", Side.sell, 101⟩],
    none⟩

/-- An aggressive `buy limit 4 @ 101` against `c1Book`. -/
def c1Inc : Order :=
  ⟨"t", "S", Side.buy, OrderType.limit, 4, 4, some 101, none, none⟩

/-- A state whose `V` book carries exactly `sell 2 @ 100`, the spec's
"FOK for exactly available liquidity at cap price" boundary case. -/
def c3State : EngineState :=
  ⟨[("V", ⟨"V", [],
      [⟨100, [⟨"m", "V", Side.sell, OrderType.limit, 2, 2, some 100, none, none⟩]⟩],
      [⟨"m", Side.sell, 100⟩], none⟩)],
    [("m", "V")], [], [], 3, -1, 5/2, 1000⟩

/-- `buy fok 2 @ 100` against `c3State`. -/
def c3Req : OrderRequest :=
  ⟨"V", Side.buy, OrderType.fok, 2, some 100, none, none⟩

/-- A one-sided book with a single bid level, used against
`snapshot_l2` at depth 0. -/
def oneBidBook : OrderBook :=
  ⟨"S", [⟨100, [⟨"a", "S", Side.buy, OrderType.limit, 1, 1, some 100, none, none⟩]⟩],
    [], [⟨"a", Side.buy, 100⟩], none⟩

/-- A two-level bid book (101 best, then 100), sorted, one resting
order per level. -/
def c8Book : OrderBook :=
  ⟨"S",
    [⟨101, [⟨"x", "S", Side.buy, OrderType.limit, 1, 1, some 101, none, none⟩]⟩,
     ⟨100, [⟨"y", "S", Side.buy, OrderType.limit, 2, 2, some 100, none, none⟩]⟩],
    [],
    [⟨"x", Side.buy, 101⟩, ⟨"y", Side.buy, 100⟩],
    none⟩

/-- A stop request with `stop_price = null` (and positive quantity):
the engine accepts it into the trigger store without any validation. -/
def badStopReq : OrderRequest :=
  ⟨"S", Side.buy, OrderType.stop, 1, none, none, none⟩

/-- A market request with zero quantity. -/
def c2ZeroReq : OrderRequest :=
  ⟨"S", Side.buy, OrderType.market, 0, none, none, none⟩

/-- A limit request with a null price and positive quantity. -/
def c2LimReq : OrderRequest :=
  ⟨"S", Side.buy, OrderType.limit, 1, none, none, none⟩

/-- Engine state with one resting limit order and one pending stop
order, for the persistence round-trip. -/
def saveDemo : EngineState :=
  subOk (subOk initEngine ⟨"S", Side.sell, OrderType.limit, 2, some 100, none, none⟩)
    ⟨"S", Side.buy, OrderType.stop, 1, none, some 120, none⟩

/-!
## Lemmas and claim theorems
-/

/-! ### Association-list lemmas -/

lemma alook_map_replace {α : Type} (l : List (String × α)) (k s : String) (v : α) :
    alook (l.map (fun e => if e.1 = k then (k, v) else e)) s =
      if k = s then (if l.any (fun e => e.1 = k) then some v else none)
      else alook l s := by
  induction l with
  | nil => by_cases h : k = s <;> simp [alook, h]
  | cons e rest ih =>
    by_cases hek : e.1 = k
    · by_cases hks : k = s
      · simp [alook, hek, hks]
      · have hes : ¬ e.1 = s := by rw [hek]; exact hks
        simp [alook, hek, hks, hes, ih]
    · by_cases hes : e.1 = s
      · have hks : ¬ k = s := by
          intro h
          exact hek (by rw [hes, h])
        have hsk : ¬ s = k := fun h => hks h.symm
        simp [alook, hek, hks, hes, hsk]
      · by_cases hks : k = s
        · subst hks
          have hd : decide (e.1 = k) = false := decide_eq_false hek
          simp [alook, hek, hes, ih]
          rw [hd, Bool.false_or]
        · simp [alook, hek, hks, hes, ih]

lemma alook_append_single {α : Type} (l : List (String × α)) (k s : String) (v : α) :
    alook (l ++ [(k, v)]) s =
      ((alook l s).elim (if k = s then some v else none) some) := by
  induction l with
  | nil => simp [alook]
  | cons e rest ih =>
    by_cases hes : e.1 = s
    · simp [alook, hes]
    · simp [alook, hes, ih]

lemma alook_none_of_not_any {α : Type} (l : List (String × α)) (k : String)
    (h : ∀ x ∈ l, ¬ x.1 = k) : alook l k = none := by
  induction l with
  | nil => simp [alook]
  | cons e rest ih =>
    have he : ¬ e.1 = k := h e (by simp)
    simp [alook, he]
    exact ih (fun x hx => h x (by simp [hx]))

/-- Dict assignment, seen through lookups. -/
lemma alook_aset {α : Type} (l : List (String × α)) (k s : String) (v : α) :
    alook (aset l k v) s = if k = s then some v else alook l s := by
  unfold aset
  by_cases hk : l.any (fun e => e.1 = k)
  · rw [if_pos hk, alook_map_replace, hk]
    simp
  · rw [if_neg hk, alook_append_single]
    have hnone : ∀ x ∈ l, ¬ x.1 = k := fun x hx hxk =>
      hk (List.any_eq_true.mpr ⟨x, hx, by simpa using hxk⟩)
    by_cases hks : k = s
    · rw [← hks, alook_none_of_not_any l k hnone]
      simp
    · cases h : alook l s <;> simp [hks]

/-- Dict removal, seen through lookups. -/
lemma alook_aerase {α : Type} (l : List (String × α)) (k s : String) :
    alook (aerase l k) s = if k = s then none else alook l s := by
  induction l with
  | nil => by_cases h : k = s <;> simp [alook, aerase, h]
  | cons e rest ih =>
    by_cases hek : e.1 = k
    · by_cases hks : k = s
      · simpa [aerase, hek, hks] using ih
      · simpa [aerase, alook, hek, hks] using ih
    · by_cases hes : e.1 = s
      · have hks : ¬ k = s := by
          intro h
          exact hek (by rw [hes, h])
        have hsk : ¬ s = k := fun h => hks h.symm
        simp [aerase, alook, hek, hes, hks, hsk]
      · by_cases hks : k = s
        · subst hks
          simpa [aerase, alook, hek, hes] using ih
        · simpa [aerase, alook, hek, hes, hks] using ih

/-! ### `consumeQueue` lemmas -/

lemma consumeQueue_rem (p : ℚ) (q : List Order) :
    ∀ rem lp, (consumeQueue rem p lp q).rem =
      rem - sumQty (consumeQueue rem p lp q).trades := by
  induction q with
  | nil => intro rem lp; simp [consumeQueue, sumQty]
  | cons maker rest ih =>
    intro rem lp
    by_cases h1 : 0 < rem
    · by_cases h2 : maker.remaining - min rem maker.remaining ≤ 0
      · simp only [consumeQueue, if_pos h1, if_pos h2]
        simp only [sumQty]
        rw [ih]
        ring
      · simp [consumeQueue, h1, h2, sumQty]
    · simp [consumeQueue, h1, sumQty]

lemma consumeQueue_rem_nonneg (p : ℚ) (q : List Order) :
    ∀ rem lp, 0 ≤ rem → 0 ≤ (consumeQueue rem p lp q).rem := by
  induction q with
  | nil => intro rem lp h; simpa [consumeQueue] using h
  | cons maker rest ih =>
    intro rem lp h
    by_cases h1 : 0 < rem
    · by_cases h2 : maker.remaining - min rem maker.remaining ≤ 0
      · simp only [consumeQueue, if_pos h1, if_pos h2]
        exact ih _ _ (by simp [min_le_left])
      · simp only [consumeQueue, if_pos h1, if_neg h2]
        exact sub_nonneg.mpr (min_le_left _ _)
    · simpa [consumeQueue, h1] using h

lemma consumeQueue_queue_ne_nil (p : ℚ) (q : List Order) :
    ∀ rem lp, (consumeQueue rem p lp q).queue ≠ [] →
      (consumeQueue rem p lp q).rem ≤ 0 := by
  induction q with
  | nil => intro rem lp h; simp [consumeQueue] at h
  | cons maker rest ih =>
    intro rem lp h
    by_cases h1 : 0 < rem
    · by_cases h2 : maker.remaining - min rem maker.remaining ≤ 0
      · simp only [consumeQueue, if_pos h1, if_pos h2] at h ⊢
        exact ih _ _ h
      · simp only [consumeQueue, if_pos h1, if_neg h2]
        have hlt : min rem maker.remaining = rem := by
          rcases le_total rem maker.remaining with hc | hc
          · exact min_eq_left hc
          · exfalso
            apply h2
            rw [min_eq_right hc]
            simp
        simp [hlt]
    · simp only [consumeQueue, if_neg h1]
      exact le_of_not_lt h1

lemma consumeQueue_queue_nil_sum (p : ℚ) (q : List Order) :
    ∀ rem lp, (consumeQueue rem p lp q).queue = [] →
      sumQty (consumeQueue rem p lp q).trades = sumRem q := by
  induction q with
  | nil => intro rem lp _; simp [consumeQueue, sumQty, sumRem]
  | cons maker rest ih =>
    intro rem lp h
    by_cases h1 : 0 < rem
    · by_cases h2 : maker.remaining - min rem maker.remaining ≤ 0
      · simp only [consumeQueue, if_pos h1, if_pos h2] at h ⊢
        simp only [sumQty, sumRem]
        rw [ih _ _ h]
        have : min rem maker.remaining = maker.remaining := by
          have hle : min rem maker.remaining ≤ maker.remaining := min_le_right _ _
          have hge : maker.remaining ≤ min rem maker.remaining := by linarith
          exact le_antisymm hle hge
        rw [this]
      · simp [consumeQueue, h1, h2] at h
    · simp [consumeQueue, h1] at h

lemma consumeQueue_queue_nil_len (p : ℚ) (q : List Order) :
    ∀ rem lp, (consumeQueue rem p lp q).queue = [] →
      (consumeQueue rem p lp q).trades.length = q.length := by
  induction q with
  | nil => intro rem lp _; simp [consumeQueue]
  | cons maker rest ih =>
    intro rem lp h
    by_cases h1 : 0 < rem
    · by_cases h2 : maker.remaining - min rem maker.remaining ≤ 0
      · simp only [consumeQueue, if_pos h1, if_pos h2] at h ⊢
        simp [ih _ _ h]
      · simp [consumeQueue, h1, h2] at h
    · simp [consumeQueue, h1] at h

lemma consumeQueue_trades_len (p : ℚ) (q : List Order) :
    ∀ rem lp, (consumeQueue rem p lp q).trades.length ≤ q.length := by
  induction q with
  | nil => intro rem lp; simp [consumeQueue]
  | cons maker rest ih =>
    intro rem lp
    by_cases h1 : 0 < rem
    · by_cases h2 : maker.remaining - min rem maker.remaining ≤ 0
      · simp only [consumeQueue, if_pos h1, if_pos h2]
        simpa using ih _ _
      · simp [consumeQueue, h1, h2]
    · simp [consumeQueue, h1]

lemma consumeQueue_trades_get (p : ℚ) (q : List Order) :
    ∀ rem lp i (hi : i < (consumeQueue rem p lp q).trades.length),
      ∃ hp : i < q.length,
        (consumeQueue rem p lp q).trades[i] =
          ⟨q[i].order_id, p,
            min (rem - sumQty ((consumeQueue rem p lp q).trades.take i))
              q[i].remaining⟩ := by
  induction q with
  | nil => intro rem lp i hi; simp [consumeQueue] at hi
  | cons maker rest ih =>
    intro rem lp i hi
    by_cases h1 : 0 < rem
    · by_cases h2 : maker.remaining - min rem maker.remaining ≤ 0
      · simp only [consumeQueue, if_pos h1, if_pos h2] at hi ⊢
        cases i with
        | zero =>
          exact ⟨by simp, by simp [sumQty]⟩
        | succ j =>
          have hj : j < (consumeQueue (rem - min rem maker.remaining) p (some p) rest).trades.length := by
            simpa using hi
          obtain ⟨hp, heq⟩ := ih (rem - min rem maker.remaining) (some p) j hj
          refine ⟨by simpa using hp, ?_⟩
          simp only [List.getElem_cons_succ, List.take_succ_cons, sumQty]
          rw [heq]
          congr 2
          ring
      · simp only [consumeQueue, if_pos h1, if_neg h2] at hi ⊢
        cases i with
        | zero => exact ⟨by simp, by simp [sumQty]⟩
        | succ j => simp at hi
    · simp [consumeQueue, h1] at hi

lemma consumeQueue_trades_map (p : ℚ) (q : List Order) :
    ∀ rem lp, (consumeQueue rem p lp q).trades.map RawTrade.maker_id =
      (q.map Order.order_id).take (consumeQueue rem p lp q).trades.length := by
  induction q with
  | nil => intro rem lp; simp [consumeQueue]
  | cons maker rest ih =>
    intro rem lp
    by_cases h1 : 0 < rem
    · by_cases h2 : maker.remaining - min rem maker.remaining ≤ 0
      · simp only [consumeQueue, if_pos h1, if_pos h2]
        simp [ih]
      · simp [consumeQueue, h1, h2]
    · simp [consumeQueue, h1]

lemma consumeQueue_trades_mem (p : ℚ) (q : List Order) :
    ∀ rem lp t, t ∈ (consumeQueue rem p lp q).trades →
      t.price = p ∧ t.maker_id ∈ q.map Order.order_id := by
  induction q with
  | nil => intro rem lp t ht; simp [consumeQueue] at ht
  | cons maker rest ih =>
    intro rem lp t ht
    by_cases h1 : 0 < rem
    · by_cases h2 : maker.remaining - min rem maker.remaining ≤ 0
      · simp only [consumeQueue, if_pos h1, if_pos h2] at ht
        rcases List.mem_cons.mp ht with h | h
        · subst h; simp
        · obtain ⟨hp, hm⟩ := ih _ _ t h
          exact ⟨hp, by simp [hm]⟩
      · simp only [consumeQueue, if_pos h1, if_neg h2] at ht
        rcases List.mem_cons.mp ht with h | h
        · subst h; simp
        · simp at h
    · simp [consumeQueue, h1] at ht

lemma consumeQueue_queue_ids (p : ℚ) (q : List Order) :
    ∀ rem lp id1, id1 ∈ (consumeQueue rem p lp q).queue.map Order.order_id →
      id1 ∈ q.map Order.order_id := by
  induction q with
  | nil => intro rem lp id1 h; simp [consumeQueue] at h
  | cons maker rest ih =>
    intro rem lp id1 h
    by_cases h1 : 0 < rem
    · by_cases h2 : maker.remaining - min rem maker.remaining ≤ 0
      · simp only [consumeQueue, if_pos h1, if_pos h2] at h
        simp [ih _ _ _ h]
      · simp only [consumeQueue, if_pos h1, if_neg h2] at h
        simpa using h
    · simpa [consumeQueue, h1] using h

lemma consumeQueue_queue_frame (p : ℚ) (q : List Order) :
    ∀ rem lp o1, o1 ∈ (consumeQueue rem p lp q).queue →
      ∃ o ∈ q, o1 = { o with remaining := o1.remaining } := by
  induction q with
  | nil => intro rem lp o1 h; simp [consumeQueue] at h
  | cons maker rest ih =>
    intro rem lp o1 h
    by_cases h1 : 0 < rem
    · by_cases h2 : maker.remaining - min rem maker.remaining ≤ 0
      · simp only [consumeQueue, if_pos h1, if_pos h2] at h
        obtain ⟨o, ho, he⟩ := ih _ _ o1 h
        exact ⟨o, by simp [ho], he⟩
      · simp only [consumeQueue, if_pos h1, if_neg h2] at h
        rcases List.mem_cons.mp h with h | h
        · exact ⟨maker, by simp, by rw [h]⟩
        · exact ⟨o1, by simp [h], rfl⟩
    · simp only [consumeQueue, if_neg h1] at h
      exact ⟨o1, by simpa using h, rfl⟩

lemma consumeQueue_popped_sub (p : ℚ) (q : List Order) :
    ∀ rem lp id1, id1 ∈ (consumeQueue rem p lp q).popped →
      id1 ∈ q.map Order.order_id := by
  induction q with
  | nil => intro rem lp id1 h; simp [consumeQueue] at h
  | cons maker rest ih =>
    intro rem lp id1 h
    by_cases h1 : 0 < rem
    · by_cases h2 : maker.remaining - min rem maker.remaining ≤ 0
      · simp only [consumeQueue, if_pos h1, if_pos h2] at h
        rcases List.mem_cons.mp h with h | h
        · simp [h]
        · simp [ih _ _ _ h]
      · simp [consumeQueue, h1, h2] at h
    · simp [consumeQueue, h1] at h

lemma consumeQueue_full_pop (p : ℚ) (q : List Order) :
    ∀ rem lp, (q.map Order.order_id).Nodup →
      ∀ i (hi : i < (consumeQueue rem p lp q).trades.length)
        (hp : i < q.length),
        (consumeQueue rem p lp q).trades[i].qty = q[i].remaining →
        q[i].order_id ∉ (consumeQueue rem p lp q).queue.map Order.order_id := by
  induction q with
  | nil => intro rem lp _ i hi; simp [consumeQueue] at hi
  | cons maker rest ih =>
    intro rem lp hnd i hi hp hqty
    by_cases h1 : 0 < rem
    · by_cases h2 : maker.remaining - min rem maker.remaining ≤ 0
      · simp only [consumeQueue, if_pos h1, if_pos h2] at hi hqty ⊢
        rw [List.map_cons] at hnd
        have hnd2 := List.nodup_cons.mp hnd
        cases i with
        | zero =>
          intro hmem
          have : maker.order_id ∈ rest.map Order.order_id :=
            consumeQueue_queue_ids p rest _ _ _ (by simpa using hmem)
          exact hnd2.1 this
        | succ j =>
          have hj : j < (consumeQueue (rem - min rem maker.remaining) p (some p) rest).trades.length := by
            simpa using hi
          have hpj : j < rest.length := by simpa using hp
          have := ih (rem - min rem maker.remaining) (some p) hnd2.2 j hj hpj (by simpa using hqty)
          simpa using this
      · simp only [consumeQueue, if_pos h1, if_neg h2] at hi hqty ⊢
        cases i with
        | zero =>
          exfalso
          apply h2
          simp only [List.getElem_cons_zero] at hqty
          rw [hqty]
          simp
        | succ j => simp at hi
    · simp [consumeQueue, h1] at hi

lemma consumeQueue_lastp (p : ℚ) (q : List Order) :
    ∀ rem lp, (consumeQueue rem p lp q).lastp =
      match (consumeQueue rem p lp q).trades.getLast? with
      | none => lp
      | some t => some t.price := by
  induction q with
  | nil => intro rem lp; simp [consumeQueue]
  | cons maker rest ih =>
    intro rem lp
    by_cases h1 : 0 < rem
    · by_cases h2 : maker.remaining - min rem maker.remaining ≤ 0
      · simp only [consumeQueue, if_pos h1, if_pos h2]
        rw [ih]
        cases hr : (consumeQueue (rem - min rem maker.remaining) p (some p) rest).trades with
        | nil => simp
        | cons t ts =>
          cases hg : (t :: ts).getLast? with
          | none => simp at hg
          | some u => simp [hg]
      · simp [consumeQueue, h1, h2]
    · simp [consumeQueue, h1]

/-! ### `matchSide` lemmas -/

lemma sumQty_append (a b : List RawTrade) :
    sumQty (a ++ b) = sumQty a + sumQty b := by
  induction a with
  | nil => simp [sumQty]
  | cons t ts ih => simp [sumQty, ih]; ring

lemma sumRem_append (a b : List Order) :
    sumRem (a ++ b) = sumRem a + sumRem b := by
  induction a with
  | nil => simp [sumRem]
  | cons o os ih => simp [sumRem, ih]; ring

lemma prefix_append_left {α : Type} (l : List α) {l₁ l₂ : List α}
    (h : l₁ <+: l₂) : l ++ l₁ <+: l ++ l₂ := by
  obtain ⟨t, ht⟩ := h
  exact ⟨t, by rw [List.append_assoc, ht]⟩

lemma flattenQ_cons (lvl : PriceLevel) (rest : List PriceLevel) :
    flattenQ (lvl :: rest) = lvl.queue ++ flattenQ rest := rfl

lemma matchSide_rem (inc : Order) (ls : List PriceLevel) :
    ∀ rem lp, (matchSide inc rem lp ls).rem =
      rem - sumQty (matchSide inc rem lp ls).trades := by
  induction ls with
  | nil => intro rem lp; simp [matchSide, sumQty]
  | cons lvl rest ih =>
    intro rem lp
    by_cases h1 : 0 < rem
    · by_cases h2 : crossableAt inc lvl.price
      · by_cases hq : (consumeQueue rem lvl.price lp lvl.queue).queue = []
        · simp only [matchSide, if_pos h1, if_pos h2, if_pos hq]
          rw [ih, sumQty_append, consumeQueue_rem]
          ring
        · simp only [matchSide, if_pos h1, if_pos h2, if_neg hq]
          exact consumeQueue_rem lvl.price lvl.queue rem lp
      · simp [matchSide, h1, h2, sumQty]
    · simp [matchSide, h1, sumQty]

lemma matchSide_rem_nonneg (inc : Order) (ls : List PriceLevel) :
    ∀ rem lp, 0 ≤ rem → 0 ≤ (matchSide inc rem lp ls).rem := by
  induction ls with
  | nil => intro rem lp h; simpa [matchSide] using h
  | cons lvl rest ih =>
    intro rem lp h
    by_cases h1 : 0 < rem
    · by_cases h2 : crossableAt inc lvl.price
      · by_cases hq : (consumeQueue rem lvl.price lp lvl.queue).queue = []
        · simp only [matchSide, if_pos h1, if_pos h2, if_pos hq]
          exact ih _ _ (consumeQueue_rem_nonneg lvl.price lvl.queue rem lp h)
        · simp only [matchSide, if_pos h1, if_pos h2, if_neg hq]
          exact consumeQueue_rem_nonneg lvl.price lvl.queue rem lp h
      · simpa [matchSide, h1, h2] using h
    · simpa [matchSide, h1] using h

lemma matchSide_full (inc : Order) (ls : List PriceLevel) :
    ∀ rem lp, 0 ≤ rem →
      rem ≤ sumRem (flattenQ (ls.takeWhile (fun lvl => crossableAt inc lvl.price))) →
      (matchSide inc rem lp ls).rem = 0 := by
  induction ls with
  | nil =>
    intro rem lp h0 hs
    simp only [List.takeWhile_nil, flattenQ, sumRem] at hs
    simp only [matchSide]
    linarith
  | cons lvl rest ih =>
    intro rem lp h0 hs
    by_cases h1 : 0 < rem
    · by_cases h2 : crossableAt inc lvl.price
      · rw [List.takeWhile_cons, if_pos h2, flattenQ_cons, sumRem_append] at hs
        by_cases hq : (consumeQueue rem lvl.price lp lvl.queue).queue = []
        · simp only [matchSide, if_pos h1, if_pos h2, if_pos hq]
          apply ih _ _ (consumeQueue_rem_nonneg lvl.price lvl.queue rem lp (le_of_lt h1))
          rw [consumeQueue_rem, consumeQueue_queue_nil_sum lvl.price lvl.queue rem lp hq]
          linarith
        · simp only [matchSide, if_pos h1, if_pos h2, if_neg hq]
          have hle := consumeQueue_queue_ne_nil lvl.price lvl.queue rem lp hq
          have hge := consumeQueue_rem_nonneg lvl.price lvl.queue rem lp (le_of_lt h1)
          linarith
      · rw [List.takeWhile_cons, if_neg h2] at hs
        simp only [List.takeWhile_nil, flattenQ, sumRem] at hs
        simp only [matchSide, if_pos h1, if_neg h2]
        linarith
    · simp only [matchSide, if_neg h1]
      linarith

lemma matchSide_trades_pre (inc : Order) (ls : List PriceLevel) :
    ∀ rem lp, (matchSide inc rem lp ls).trades.map RawTrade.maker_id <+:
      (flattenQ ls).map Order.order_id := by
  induction ls with
  | nil => intro rem lp; simp [matchSide, flattenQ]
  | cons lvl rest ih =>
    intro rem lp
    by_cases h1 : 0 < rem
    · by_cases h2 : crossableAt inc lvl.price
      · by_cases hq : (consumeQueue rem lvl.price lp lvl.queue).queue = []
        · simp only [matchSide, if_pos h1, if_pos h2, if_pos hq]
          rw [flattenQ_cons, List.map_append, List.map_append]
          have hfull : (consumeQueue rem lvl.price lp lvl.queue).trades.map RawTrade.maker_id =
              lvl.queue.map Order.order_id := by
            rw [consumeQueue_trades_map,
              consumeQueue_queue_nil_len lvl.price lvl.queue rem lp hq]
            exact List.take_of_length_le (by simp)
          rw [hfull]
          exact prefix_append_left _ (ih _ _)
        · simp only [matchSide, if_pos h1, if_pos h2, if_neg hq]
          rw [flattenQ_cons, List.map_append, consumeQueue_trades_map]
          exact (List.take_prefix _ _).trans (List.prefix_append _ _)
      · simp [matchSide, h1, h2]
    · simp [matchSide, h1]

lemma getElem_flattenQ_left (lvl : PriceLevel) (rest : List PriceLevel)
    (i : Nat) (hp : i < lvl.queue.length)
    (hpf : i < (flattenQ (lvl :: rest)).length) :
    (flattenQ (lvl :: rest))[i] = lvl.queue[i] :=
  List.getElem_append_left hp

lemma getElem_flattenQ_right (lvl : PriceLevel) (rest : List PriceLevel)
    (i j : Nat) (hge : lvl.queue.length ≤ i) (hj : i - lvl.queue.length = j)
    (hpf : i < (flattenQ (lvl :: rest)).length)
    (hjl : j < (flattenQ rest).length) :
    (flattenQ (lvl :: rest))[i] = (flattenQ rest)[j] := by
  subst hj
  exact List.getElem_append_right hge

lemma matchSide_trades_get (inc : Order) (ls : List PriceLevel) :
    ∀ rem lp i (hi : i < (matchSide inc rem lp ls).trades.length),
      ∃ hp : i < (flattenQ ls).length,
        (matchSide inc rem lp ls).trades[i].maker_id = (flattenQ ls)[i].order_id ∧
        (matchSide inc rem lp ls).trades[i].qty =
          min (rem - sumQty ((matchSide inc rem lp ls).trades.take i))
            (flattenQ ls)[i].remaining := by
  induction ls with
  | nil => intro rem lp i hi; simp [matchSide] at hi
  | cons lvl rest ih =>
    intro rem lp i hi
    by_cases h1 : 0 < rem
    · by_cases h2 : crossableAt inc lvl.price
      · by_cases hq : (consumeQueue rem lvl.price lp lvl.queue).queue = []
        · simp only [matchSide, if_pos h1, if_pos h2, if_pos hq] at hi ⊢
          have hlen : (consumeQueue rem lvl.price lp lvl.queue).trades.length =
              lvl.queue.length :=
            consumeQueue_queue_nil_len lvl.price lvl.queue rem lp hq
          rw [List.length_append] at hi
          by_cases hcase : i < (consumeQueue rem lvl.price lp lvl.queue).trades.length
          · obtain ⟨hp, heq⟩ := consumeQueue_trades_get lvl.price lvl.queue rem lp i hcase
            have hpf : i < (flattenQ (lvl :: rest)).length := by
              rw [flattenQ_cons, List.length_append]
              omega
            have hfl := getElem_flattenQ_left lvl rest i hp hpf
            have ht : ((consumeQueue rem lvl.price lp lvl.queue).trades ++
                (matchSide inc (consumeQueue rem lvl.price lp lvl.queue).rem
                  (consumeQueue rem lvl.price lp lvl.queue).lastp rest).trades).take i =
                (consumeQueue rem lvl.price lp lvl.queue).trades.take i := by
              rw [List.take_append_eq_append_take, Nat.sub_eq_zero_of_le (le_of_lt hcase)]
              simp
            refine ⟨hpf, ?_, ?_⟩
            · rw [List.getElem_append_left hcase, heq, hfl]
            · rw [List.getElem_append_left hcase, heq, hfl, ht]
          · push_neg at hcase
            have hjlt : i - (consumeQueue rem lvl.price lp lvl.queue).trades.length <
                (matchSide inc (consumeQueue rem lvl.price lp lvl.queue).rem
                  (consumeQueue rem lvl.price lp lvl.queue).lastp rest).trades.length := by
              omega
            obtain ⟨hp2, hm2, hq2⟩ := ih (consumeQueue rem lvl.price lp lvl.queue).rem
              (consumeQueue rem lvl.price lp lvl.queue).lastp _ hjlt
            have hpf : i < (flattenQ (lvl :: rest)).length := by
              rw [flattenQ_cons, List.length_append]
              omega
            have hge2 : lvl.queue.length ≤ i := by omega
            have hjeq : i - lvl.queue.length =
                i - (consumeQueue rem lvl.price lp lvl.queue).trades.length := by
              omega
            have hfr := getElem_flattenQ_right lvl rest i
              (i - (consumeQueue rem lvl.price lp lvl.queue).trades.length)
              hge2 hjeq hpf hp2
            have ht : ((consumeQueue rem lvl.price lp lvl.queue).trades ++
                (matchSide inc (consumeQueue rem lvl.price lp lvl.queue).rem
                  (consumeQueue rem lvl.price lp lvl.queue).lastp rest).trades).take i =
                (consumeQueue rem lvl.price lp lvl.queue).trades ++
                  (matchSide inc (consumeQueue rem lvl.price lp lvl.queue).rem
                    (consumeQueue rem lvl.price lp lvl.queue).lastp rest).trades.take
                      (i - (consumeQueue rem lvl.price lp lvl.queue).trades.length) := by
              rw [List.take_append_eq_append_take, List.take_of_length_le hcase]
            refine ⟨hpf, ?_, ?_⟩
            · rw [List.getElem_append_right hcase, hfr]
              exact hm2
            · rw [List.getElem_append_right hcase, hfr, ht, sumQty_append, hq2,
                consumeQueue_rem]
              congr 1
              ring
        · simp only [matchSide, if_pos h1, if_pos h2, if_neg hq] at hi ⊢
          obtain ⟨hp, heq⟩ := consumeQueue_trades_get lvl.price lvl.queue rem lp i hi
          have hpf : i < (flattenQ (lvl :: rest)).length := by
            rw [flattenQ_cons, List.length_append]
            omega
          have hfl := getElem_flattenQ_left lvl rest i hp hpf
          refine ⟨hpf, ?_, ?_⟩
          · rw [heq, hfl]
          · rw [heq, hfl]
      · simp [matchSide, h1, h2] at hi
    · simp [matchSide, h1] at hi

lemma matchSide_trades_mem (inc : Order) (ls : List PriceLevel) :
    ∀ rem lp t, t ∈ (matchSide inc rem lp ls).trades →
      ∃ lvl ∈ ls, t.price = lvl.price ∧ crossableAt inc lvl.price = true ∧
        t.maker_id ∈ lvl.queue.map Order.order_id := by
  induction ls with
  | nil => intro rem lp t ht; simp [matchSide] at ht
  | cons lvl rest ih =>
    intro rem lp t ht
    by_cases h1 : 0 < rem
    · by_cases h2 : crossableAt inc lvl.price
      · by_cases hq : (consumeQueue rem lvl.price lp lvl.queue).queue = []
        · simp only [matchSide, if_pos h1, if_pos h2, if_pos hq] at ht
          rcases List.mem_append.mp ht with h | h
          · obtain ⟨hp, hm⟩ := consumeQueue_trades_mem lvl.price lvl.queue rem lp t h
            exact ⟨lvl, by simp, hp, h2, hm⟩
          · obtain ⟨l2, hl2, hrest⟩ := ih _ _ t h
            exact ⟨l2, by simp [hl2], hrest⟩
        · simp only [matchSide, if_pos h1, if_pos h2, if_neg hq] at ht
          obtain ⟨hp, hm⟩ := consumeQueue_trades_mem lvl.price lvl.queue rem lp t ht
          exact ⟨lvl, by simp, hp, h2, hm⟩
      · simp [matchSide, h1, h2] at ht
    · simp [matchSide, h1] at ht

lemma matchSide_levels_frame (inc : Order) (ls : List PriceLevel) :
    ∀ rem lp o1, o1 ∈ flattenQ (matchSide inc rem lp ls).levels →
      ∃ o ∈ flattenQ ls, o1 = { o with remaining := o1.remaining } := by
  induction ls with
  | nil => intro rem lp o1 h; simp [matchSide, flattenQ] at h
  | cons lvl rest ih =>
    intro rem lp o1 h
    by_cases h1 : 0 < rem
    · by_cases h2 : crossableAt inc lvl.price
      · by_cases hq : (consumeQueue rem lvl.price lp lvl.queue).queue = []
        · simp only [matchSide, if_pos h1, if_pos h2, if_pos hq] at h
          obtain ⟨o, ho, he⟩ := ih _ _ o1 h
          refine ⟨o, ?_, he⟩
          rw [flattenQ_cons]
          exact List.mem_append_right _ ho
        · simp only [matchSide, if_pos h1, if_pos h2, if_neg hq] at h
          rw [flattenQ_cons] at h
          rcases List.mem_append.mp h with h | h
          · obtain ⟨o, ho, he⟩ := consumeQueue_queue_frame lvl.price lvl.queue rem lp o1 h
            refine ⟨o, ?_, he⟩
            rw [flattenQ_cons]
            exact List.mem_append_left _ ho
          · refine ⟨o1, ?_, rfl⟩
            rw [flattenQ_cons]
            exact List.mem_append_right _ h
      · simp only [matchSide, if_neg h2, if_pos h1] at h
        exact ⟨o1, h, rfl⟩
    · simp only [matchSide, if_neg h1] at h
      exact ⟨o1, h, rfl⟩

lemma matchSide_levels_ids (inc : Order) (ls : List PriceLevel)
    (rem : ℚ) (lp : Option ℚ) (id1 : String)
    (h : id1 ∈ (flattenQ (matchSide inc rem lp ls).levels).map Order.order_id) :
    id1 ∈ (flattenQ ls).map Order.order_id := by
  rw [List.mem_map] at h
  obtain ⟨o1, ho1, hid⟩ := h
  obtain ⟨o, ho, he⟩ := matchSide_levels_frame inc ls rem lp o1 ho1
  rw [List.mem_map]
  refine ⟨o, ho, ?_⟩
  rw [← hid, he]

lemma matchSide_popped_sub (inc : Order) (ls : List PriceLevel) :
    ∀ rem lp id1, id1 ∈ (matchSide inc rem lp ls).popped →
      id1 ∈ (flattenQ ls).map Order.order_id := by
  induction ls with
  | nil => intro rem lp id1 h; simp [matchSide] at h
  | cons lvl rest ih =>
    intro rem lp id1 h
    by_cases h1 : 0 < rem
    · by_cases h2 : crossableAt inc lvl.price
      · by_cases hq : (consumeQueue rem lvl.price lp lvl.queue).queue = []
        · simp only [matchSide, if_pos h1, if_pos h2, if_pos hq] at h
          rw [flattenQ_cons, List.map_append]
          rcases List.mem_append.mp h with h | h
          · exact List.mem_append_left _
              (consumeQueue_popped_sub lvl.price lvl.queue rem lp id1 h)
          · exact List.mem_append_right _ (ih _ _ _ h)
        · simp only [matchSide, if_pos h1, if_pos h2, if_neg hq] at h
          rw [flattenQ_cons, List.map_append]
          exact List.mem_append_left _
            (consumeQueue_popped_sub lvl.price lvl.queue rem lp id1 h)
      · simp [matchSide, h1, h2] at h
    · simp [matchSide, h1] at h

lemma matchSide_levels_nonempty (inc : Order) (ls : List PriceLevel) :
    ∀ rem lp, (∀ lvl ∈ ls, lvl.queue ≠ []) →
      ∀ lvl ∈ (matchSide inc rem lp ls).levels, lvl.queue ≠ [] := by
  induction ls with
  | nil => intro rem lp _ lvl h; simp [matchSide] at h
  | cons l0 rest ih =>
    intro rem lp hne lvl h
    by_cases h1 : 0 < rem
    · by_cases h2 : crossableAt inc l0.price
      · by_cases hq : (consumeQueue rem l0.price lp l0.queue).queue = []
        · simp only [matchSide, if_pos h1, if_pos h2, if_pos hq] at h
          exact ih _ _ (fun l hl => hne l (by simp [hl])) lvl h
        · simp only [matchSide, if_pos h1, if_pos h2, if_neg hq] at h
          rcases List.mem_cons.mp h with h | h
          · rw [h]
            exact hq
          · exact hne lvl (by simp [h])
      · simp only [matchSide, if_pos h1, if_neg h2] at h
        exact hne lvl h
    · simp only [matchSide, if_neg h1] at h
      exact hne lvl h

lemma matchSide_full_pop (inc : Order) (ls : List PriceLevel) :
    ∀ rem lp, ((flattenQ ls).map Order.order_id).Nodup →
      ∀ i (hi : i < (matchSide inc rem lp ls).trades.length)
        (hp : i < (flattenQ ls).length),
        (matchSide inc rem lp ls).trades[i].qty = (flattenQ ls)[i].remaining →
        (flattenQ ls)[i].order_id ∉
          (flattenQ (matchSide inc rem lp ls).levels).map Order.order_id := by
  induction ls with
  | nil => intro rem lp _ i hi; simp [matchSide] at hi
  | cons lvl rest ih =>
    intro rem lp hnd i hi hp hqty
    have hnds : (lvl.queue.map Order.order_id).Nodup ∧
        ((flattenQ rest).map Order.order_id).Nodup ∧
        ∀ a ∈ lvl.queue.map Order.order_id, a ∉ (flattenQ rest).map Order.order_id := by
      rw [flattenQ_cons, List.map_append, List.nodup_append] at hnd
      exact ⟨hnd.1, hnd.2.1, fun a ha => hnd.2.2 ha⟩
    by_cases h1 : 0 < rem
    · by_cases h2 : crossableAt inc lvl.price
      · by_cases hq : (consumeQueue rem lvl.price lp lvl.queue).queue = []
        · simp only [matchSide, if_pos h1, if_pos h2, if_pos hq] at hi hqty ⊢
          have hlen : (consumeQueue rem lvl.price lp lvl.queue).trades.length =
              lvl.queue.length :=
            consumeQueue_queue_nil_len lvl.price lvl.queue rem lp hq
          by_cases hcase : i < (consumeQueue rem lvl.price lp lvl.queue).trades.length
          · -- the whole of lvl.queue is consumed; its ids cannot reappear
            have hplt : i < lvl.queue.length := by omega
            have hfl := getElem_flattenQ_left lvl rest i hplt hp
            rw [hfl]
            intro hmem
            have hin : lvl.queue[i].order_id ∈ (flattenQ rest).map Order.order_id :=
              matchSide_levels_ids inc rest _ _ _ hmem
            exact hnds.2.2 lvl.queue[i].order_id
              (List.mem_map.mpr ⟨lvl.queue[i], List.getElem_mem hplt, rfl⟩) hin
          · push_neg at hcase
            rw [List.length_append] at hi
            have hjlt : i - (consumeQueue rem lvl.price lp lvl.queue).trades.length <
                (matchSide inc (consumeQueue rem lvl.price lp lvl.queue).rem
                  (consumeQueue rem lvl.price lp lvl.queue).lastp rest).trades.length := by
              omega
            have hge2 : lvl.queue.length ≤ i := by omega
            have hjf : i - (consumeQueue rem lvl.price lp lvl.queue).trades.length <
                (flattenQ rest).length := by
              obtain ⟨hp2, _, _⟩ := matchSide_trades_get inc rest
                (consumeQueue rem lvl.price lp lvl.queue).rem
                (consumeQueue rem lvl.price lp lvl.queue).lastp _ hjlt
              exact hp2
            have hjeq : i - lvl.queue.length =
                i - (consumeQueue rem lvl.price lp lvl.queue).trades.length := by
              omega
            have hfr := getElem_flattenQ_right lvl rest i
              (i - (consumeQueue rem lvl.price lp lvl.queue).trades.length)
              hge2 hjeq hp hjf
            rw [hfr]
            rw [List.getElem_append_right hcase, hfr] at hqty
            exact ih _ _ hnds.2.1 _ hjlt hjf hqty
        · simp only [matchSide, if_pos h1, if_pos h2, if_neg hq] at hi hqty ⊢
          have hlen := consumeQueue_trades_len lvl.price lvl.queue rem lp
          have hplt : i < lvl.queue.length := by omega
          have hfl := getElem_flattenQ_left lvl rest i hplt hp
          rw [hfl] at hqty ⊢
          rw [flattenQ_cons, List.map_append]
          intro hmem
          rcases List.mem_append.mp hmem with hmem | hmem
          · exact consumeQueue_full_pop lvl.price lvl.queue rem lp hnds.1 i hi hplt
              hqty hmem
          · exact hnds.2.2 lvl.queue[i].order_id
              (List.mem_map.mpr ⟨lvl.queue[i], List.getElem_mem hplt, rfl⟩) hmem
      · simp [matchSide, h1, h2] at hi
    · simp [matchSide, h1] at hi

lemma matchSide_lastp (inc : Order) (ls : List PriceLevel) :
    ∀ rem lp, (matchSide inc rem lp ls).lastp =
      match (matchSide inc rem lp ls).trades.getLast? with
      | none => lp
      | some t => some t.price := by
  induction ls with
  | nil => intro rem lp; simp [matchSide]
  | cons lvl rest ih =>
    intro rem lp
    by_cases h1 : 0 < rem
    · by_cases h2 : crossableAt inc lvl.price
      · by_cases hq : (consumeQueue rem lvl.price lp lvl.queue).queue = []
        · simp only [matchSide, if_pos h1, if_pos h2, if_pos hq]
          rw [ih, List.getLast?_append]
          cases hr : (matchSide inc (consumeQueue rem lvl.price lp lvl.queue).rem
              (consumeQueue rem lvl.price lp lvl.queue).lastp rest).trades.getLast? with
          | none => simp only [Option.none_or, consumeQueue_lastp]
          | some u => rfl
        · simp only [matchSide, if_pos h1, if_pos h2, if_neg hq]
          exact consumeQueue_lastp lvl.price lvl.queue rem lp
      · simp [matchSide, h1, h2]
    · simp [matchSide, h1]

/-! ### Claim C1: price-time priority of `OrderBook.match` -/

/-- **C1** — For every incoming order matched against the book, each
fill executes at the maker's resting level price (the best opposite
level), with fill quantity `min(incoming.remaining, maker.remaining)`
at the moment of the fill; makers are consumed in strict FIFO insertion
order, best price level first (the trades' maker ids are a prefix of
the best-first flattening of the opposite side); a fully filled maker
is popped from its level queue (its id no longer rests on the opposite
side), a level whose queue becomes empty is removed (no empty level
remains), and `last_trade_price` is set to each execution price (so it
ends at the last fill's price).  Hypotheses: the book invariants that
level queues are nonempty and resting ids are unique. -/
theorem match_price_time_priority (book : OrderBook) (incoming : Order)
    (hne : ∀ lvl ∈ oppLevels book incoming.side, lvl.queue ≠ [])
    (hnd : ((flattenQ (oppLevels book incoming.side)).map Order.order_id).Nodup) :
    ((matchTrades book incoming).map RawTrade.maker_id <+:
        (flattenQ (oppLevels book incoming.side)).map Order.order_id) ∧
    (∀ t ∈ matchTrades book incoming, ∃ lvl ∈ oppLevels book incoming.side,
        t.price = lvl.price ∧ t.maker_id ∈ lvl.queue.map Order.order_id) ∧
    (∀ i (hi : i < (matchTrades book incoming).length)
        (hp : i < (flattenQ (oppLevels book incoming.side)).length),
        (matchTrades book incoming)[i].qty =
          min (incoming.remaining - sumQty ((matchTrades book incoming).take i))
            (flattenQ (oppLevels book incoming.side))[i].remaining) ∧
    (∀ i (hi : i < (matchTrades book incoming).length)
        (hp : i < (flattenQ (oppLevels book incoming.side)).length),
        (matchTrades book incoming)[i].qty =
          (flattenQ (oppLevels book incoming.side))[i].remaining →
        (flattenQ (oppLevels book incoming.side))[i].order_id ∉
          (flattenQ (oppLevels (matchBook book incoming) incoming.side)).map
            Order.order_id) ∧
    (∀ lvl ∈ oppLevels (matchBook book incoming) incoming.side, lvl.queue ≠ []) ∧
    (∀ t, (matchTrades book incoming).getLast? = some t →
        (matchBook book incoming).last_trade_price = some t.price) := by
  cases hs : incoming.side with
  | buy =>
    simp only [matchTrades, matchBook, OrderBook.matchOrder, hs, oppLevels] at hne hnd ⊢
    refine ⟨matchSide_trades_pre incoming book.asks _ _,
      fun t ht => ?_, fun i hi hp => ?_, fun i hi hp hq => ?_, ?_, fun t ht => ?_⟩
    · obtain ⟨lvl, hl, hp, _, hm⟩ := matchSide_trades_mem incoming book.asks _ _ t ht
      exact ⟨lvl, hl, hp, hm⟩
    · obtain ⟨hp2, _, hq2⟩ := matchSide_trades_get incoming book.asks _ _ i hi
      exact hq2
    · exact matchSide_full_pop incoming book.asks _ _ hnd i hi hp hq
    · exact matchSide_levels_nonempty incoming book.asks _ _ hne
    · rw [matchSide_lastp, ht]
  | sell =>
    simp only [matchTrades, matchBook, OrderBook.matchOrder, hs, oppLevels] at hne hnd ⊢
    refine ⟨matchSide_trades_pre incoming book.bids _ _,
      fun t ht => ?_, fun i hi hp => ?_, fun i hi hp hq => ?_, ?_, fun t ht => ?_⟩
    · obtain ⟨lvl, hl, hp, _, hm⟩ := matchSide_trades_mem incoming book.bids _ _ t ht
      exact ⟨lvl, hl, hp, hm⟩
    · obtain ⟨hp2, _, hq2⟩ := matchSide_trades_get incoming book.bids _ _ i hi
      exact hq2
    · exact matchSide_full_pop incoming book.bids _ _ hnd i hi hp hq
    · exact matchSide_levels_nonempty incoming book.bids _ _ hne
    · rw [matchSide_lastp, ht]

/-- Witness for C1 at a concrete two-level book and an aggressive
limit buy. -/
theorem match_price_time_priority_witness :
    (∀ lvl ∈ oppLevels c1Book c1Inc.side, lvl.queue ≠ []) ∧
    ((flattenQ (oppLevels c1Book c1Inc.side)).map Order.order_id).Nodup ∧
    (((matchTrades c1Book c1Inc).map RawTrade.maker_id <+:
        (flattenQ (oppLevels c1Book c1Inc.side)).map Order.order_id) ∧
      (∀ t ∈ matchTrades c1Book c1Inc, ∃ lvl ∈ oppLevels c1Book c1Inc.side,
          t.price = lvl.price ∧ t.maker_id ∈ lvl.queue.map Order.order_id) ∧
      (∀ i (hi : i < (matchTrades c1Book c1Inc).length)
          (hp : i < (flattenQ (oppLevels c1Book c1Inc.side)).length),
          (matchTrades c1Book c1Inc)[i].qty =
            min (c1Inc.remaining - sumQty ((matchTrades c1Book c1Inc).take i))
              (flattenQ (oppLevels c1Book c1Inc.side))[i].remaining) ∧
      (∀ i (hi : i < (matchTrades c1Book c1Inc).length)
          (hp : i < (flattenQ (oppLevels c1Book c1Inc.side)).length),
          (matchTrades c1Book c1Inc)[i].qty =
            (flattenQ (oppLevels c1Book c1Inc.side))[i].remaining →
          (flattenQ (oppLevels c1Book c1Inc.side))[i].order_id ∉
            (flattenQ (oppLevels (matchBook c1Book c1Inc) c1Inc.side)).map
              Order.order_id) ∧
      (∀ lvl ∈ oppLevels (matchBook c1Book c1Inc) c1Inc.side, lvl.queue ≠ []) ∧
      (∀ t, (matchTrades c1Book c1Inc).getLast? = some t →
          (matchBook c1Book c1Inc).last_trade_price = some t.price)) :=
  ⟨by decide, by decide,
    match_price_time_priority c1Book c1Inc (by decide) (by decide)⟩

/-! ### Claim C10: frame property of `OrderBook.match` -/

/-- **C10** — `OrderBook.match` leaves the incoming order's own side of
the book (and the symbol) unchanged; the book-side `order_index` only
loses entries, and an entry can only disappear if its id belonged to an
opposite-side maker; every order left on the opposite side is one of
the original opposite-side orders with at most its `remaining` field
changed; and `last_trade_price` is untouched when there are no fills. -/
theorem match_frame (book : OrderBook) (incoming : Order) :
    ownLevels (matchBook book incoming) incoming.side =
      ownLevels book incoming.side ∧
    (matchBook book incoming).symbol = book.symbol ∧
    (∀ e ∈ (matchBook book incoming).order_index, e ∈ book.order_index) ∧
    (∀ e ∈ book.order_index, e ∉ (matchBook book incoming).order_index →
        ∃ o ∈ flattenQ (oppLevels book incoming.side), o.order_id = e.oid) ∧
    (∀ o1 ∈ flattenQ (oppLevels (matchBook book incoming) incoming.side),
        ∃ o ∈ flattenQ (oppLevels book incoming.side),
          o1 = { o with remaining := o1.remaining }) ∧
    (matchTrades book incoming = [] →
        (matchBook book incoming).last_trade_price = book.last_trade_price) := by
  cases hs : incoming.side with
  | buy =>
    simp only [matchTrades, matchBook, OrderBook.matchOrder, hs, oppLevels,
      ownLevels] at *
    refine ⟨trivial, trivial, fun e he => (List.mem_filter.mp he).1,
      fun e he hne => ?_, fun o1 h => matchSide_levels_frame incoming book.asks _ _ o1 h,
      fun ht => ?_⟩
    · have hm : e.oid ∈ (matchSide incoming incoming.remaining
          book.last_trade_price book.asks).popped := by
        by_contra hno
        apply hne
        rw [List.mem_filter]
        refine ⟨he, ?_⟩
        simpa using hno
      exact List.mem_map.mp
        (matchSide_popped_sub incoming book.asks _ _ e.oid hm) |>.elim
        (fun o ho => ⟨o, ho.1, ho.2⟩)
    · rw [matchSide_lastp, ht]
      rfl
  | sell =>
    simp only [matchTrades, matchBook, OrderBook.matchOrder, hs, oppLevels,
      ownLevels] at *
    refine ⟨trivial, trivial, fun e he => (List.mem_filter.mp he).1,
      fun e he hne => ?_, fun o1 h => matchSide_levels_frame incoming book.bids _ _ o1 h,
      fun ht => ?_⟩
    · have hm : e.oid ∈ (matchSide incoming incoming.remaining
          book.last_trade_price book.bids).popped := by
        by_contra hno
        apply hne
        rw [List.mem_filter]
        refine ⟨he, ?_⟩
        simpa using hno
      exact List.mem_map.mp
        (matchSide_popped_sub incoming book.bids _ _ e.oid hm) |>.elim
        (fun o ho => ⟨o, ho.1, ho.2⟩)
    · rw [matchSide_lastp, ht]
      rfl

/-! ### FOK precheck lemmas -/

lemma sumRem_nonneg (q : List Order) (hpos : ∀ o ∈ q, 0 < o.remaining) :
    0 ≤ sumRem q := by
  induction q with
  | nil => simp [sumRem]
  | cons o rest ih =>
    simp only [sumRem]
    have h1 := hpos o (by simp)
    have h2 := ih (fun x hx => hpos x (by simp [hx]))
    linarith

lemma flattenQ_mem (ls : List PriceLevel) (o : Order) :
    o ∈ flattenQ ls ↔ ∃ lvl ∈ ls, o ∈ lvl.queue := by
  induction ls with
  | nil => simp [flattenQ]
  | cons lvl rest ih =>
    rw [flattenQ_cons, List.mem_append, ih]
    constructor
    · rintro (h | ⟨l2, hl2, ho⟩)
      · exact ⟨lvl, by simp, h⟩
      · exact ⟨l2, by simp [hl2], ho⟩
    · rintro ⟨l2, hl2, ho⟩
      rcases List.mem_cons.mp hl2 with h | h
      · subst h
        exact Or.inl ho
      · exact Or.inr ⟨l2, h, ho⟩

lemma fokQueue_spec (q : List Order) (hpos : ∀ o ∈ q, 0 < o.remaining) :
    ∀ need, fokQueue need q =
      if q ≠ [] ∧ need - sumRem q ≤ 0 then Except.error ()
      else Except.ok (need - sumRem q) := by
  induction q with
  | nil => intro need; simp [fokQueue, sumRem]
  | cons o rest ih =>
    intro need
    have hrest : ∀ x ∈ rest, 0 < x.remaining := fun x hx => hpos x (by simp [hx])
    have hrpos : 0 ≤ sumRem rest := sumRem_nonneg rest hrest
    by_cases h : need - o.remaining ≤ 0
    · have hc : ((o :: rest) ≠ [] ∧ need - sumRem (o :: rest) ≤ 0) := by
        refine ⟨by simp, ?_⟩
        simp only [sumRem]
        linarith
      rw [if_pos hc]
      simp [fokQueue, h]
    · rw [fokQueue, if_neg h, ih hrest _]
      by_cases h2 : rest ≠ [] ∧ need - o.remaining - sumRem rest ≤ 0
      · rw [if_pos h2]
        have hc : ((o :: rest) ≠ [] ∧ need - sumRem (o :: rest) ≤ 0) := by
          refine ⟨by simp, ?_⟩
          simp only [sumRem]
          linarith [h2.2]
        rw [if_pos hc]
      · rw [if_neg h2]
        have hc : ¬ ((o :: rest) ≠ [] ∧ need - sumRem (o :: rest) ≤ 0) := by
          intro hcon
          apply h2
          rcases List.eq_nil_or_concat rest with hr | _
          · subst hr
            simp only [sumRem] at hcon
            exfalso
            apply h
            linarith [hcon.2]
          · refine ⟨by rintro rfl; simp at *, ?_⟩
            simp only [sumRem] at hcon
            linarith [hcon.2]
        rw [if_neg hc]
        congr 1
        simp only [sumRem]
        ring
    
lemma fokLevels_iff (B : ℚ → Bool) (ls : List PriceLevel)
    (hpos : ∀ lvl ∈ ls, ∀ o ∈ lvl.queue, 0 < o.remaining) :
    ∀ need, fokLevels B need ls = true ↔
      (flattenQ (ls.takeWhile (fun lvl => !(B lvl.price))) ≠ [] ∧
        need - sumRem (flattenQ (ls.takeWhile (fun lvl => !(B lvl.price)))) ≤ 0) := by
  induction ls with
  | nil => intro need; simp [fokLevels, flattenQ]
  | cons lvl rest ih =>
    intro need
    have hq : ∀ o ∈ lvl.queue, 0 < o.remaining := hpos lvl (by simp)
    have hrest : ∀ l ∈ rest, ∀ o ∈ l.queue, 0 < o.remaining :=
      fun l hl => hpos l (by simp [hl])
    have hflpos : ∀ o ∈ flattenQ (rest.takeWhile (fun l => !(B l.price))),
        0 < o.remaining := by
      intro o ho
      obtain ⟨l2, hl2, ho2⟩ := (flattenQ_mem _ o).mp ho
      exact hrest l2 ((List.takeWhile_sublist _).subset hl2) o ho2
    have hflnn := sumRem_nonneg _ hflpos
    by_cases hb : B lvl.price
    · rw [List.takeWhile_cons, if_neg (by simp [hb])]
      simp [fokLevels, hb, flattenQ]
    · have hbb : (!B lvl.price) = true := by simp [hb]
      rw [List.takeWhile_cons, if_pos hbb]
      rw [fokLevels, if_neg (by simp [hb]), fokQueue_spec lvl.queue hq need]
      by_cases hcq : lvl.queue ≠ [] ∧ need - sumRem lvl.queue ≤ 0
      · rw [if_pos hcq]
        simp only [true_iff]
        constructor
        · rw [flattenQ_cons]
          intro hcon
          exact hcq.1 (by simpa using (List.append_eq_nil.mp hcon).1)
        · rw [flattenQ_cons, sumRem_append]
          linarith [hcq.2]
      · rw [if_neg hcq, ih hrest _]
        rw [flattenQ_cons, sumRem_append]
        constructor
        · rintro ⟨hne, hle⟩
          refine ⟨?_, by linarith⟩
          intro hcon
          exact hne (by simpa using (List.append_eq_nil.mp hcon).2)
        · rintro ⟨hne, hle⟩
          by_cases hfr : flattenQ (rest.takeWhile (fun l => !(B l.price))) = []
          · exfalso
            apply hcq
            have hqne : lvl.queue ≠ [] := by
              intro hcon
              apply hne
              rw [hcon, hfr]
              simp
            refine ⟨hqne, ?_⟩
            rw [hfr] at hle
            simp only [sumRem] at hle
            linarith
          · exact ⟨hfr, by linarith⟩

lemma filter_eq_takeWhile {α : Type} (P : α → Bool) (r : α → α → Prop) :
    ∀ l : List α, l.Sorted r →
      (∀ a b, r a b → P b = true → P a = true) →
      l.filter P = l.takeWhile P := by
  intro l
  induction l with
  | nil => intro _ _; simp
  | cons a l ih =>
    intro hs hmono
    have hsc := List.sorted_cons.mp hs
    by_cases hPa : P a
    · rw [List.filter_cons_of_pos hPa, List.takeWhile_cons, if_pos hPa,
        ih hsc.2 hmono]
    · rw [List.filter_cons_of_neg (by simpa using hPa), List.takeWhile_cons,
        if_neg (by simpa using hPa)]
      rw [List.filter_eq_nil_iff]
      intro b hb hPb
      exact hPa (hmono a b (hsc.1 b hb) hPb)

lemma pred_le_eq_not_lt (cap : ℚ) :
    (fun lvl : PriceLevel => decide (lvl.price ≤ cap)) =
      (fun lvl : PriceLevel => !(decide (cap < lvl.price))) := by
  funext lvl
  rw [← decide_not]
  exact decide_eq_decide.mpr not_lt.symm

lemma pred_ge_eq_not_lt (cap : ℚ) :
    (fun lvl : PriceLevel => decide (cap ≤ lvl.price)) =
      (fun lvl : PriceLevel => !(decide (lvl.price < cap))) := by
  funext lvl
  rw [← decide_not]
  exact decide_eq_decide.mpr not_lt.symm

lemma crossable_pred_buy (inc : Order) (cap : ℚ)
    (ht : inc.type = OrderType.fok) (hp : inc.price = some cap)
    (hs : inc.side = Side.buy) :
    (fun lvl : PriceLevel => crossableAt inc lvl.price) =
      (fun lvl : PriceLevel => decide (lvl.price ≤ cap)) := by
  funext lvl
  simp [crossableAt, ht, hp, hs]

lemma crossable_pred_sell (inc : Order) (cap : ℚ)
    (ht : inc.type = OrderType.fok) (hp : inc.price = some cap)
    (hs : inc.side = Side.sell) :
    (fun lvl : PriceLevel => crossableAt inc lvl.price) =
      (fun lvl : PriceLevel => decide (cap ≤ lvl.price)) := by
  funext lvl
  simp [crossableAt, ht, hp, hs]

lemma precheck_iff_buy (book : OrderBook) (cap qty : ℚ) (hq : 0 < qty)
    (hpos : ∀ lvl ∈ book.asks, ∀ o ∈ lvl.queue, 0 < o.remaining)
    (hsort : (book.asks.map PriceLevel.price).Sorted (· < ·)) :
    (precheck_fok book Side.buy (some cap) qty = true ↔
      qty ≤ fokAvail book Side.buy cap) := by
  have hfilter : book.asks.filter (fun lvl => decide (lvl.price ≤ cap)) =
      book.asks.takeWhile (fun lvl => decide (lvl.price ≤ cap)) := by
    apply filter_eq_takeWhile _ (fun a b : PriceLevel => a.price < b.price)
    · exact (List.pairwise_map.mp hsort)
    · intro a b hr hb
      simp only [decide_eq_true_eq] at hb ⊢
      linarith
  have havail : fokAvail book Side.buy cap =
      sumRem (flattenQ (book.asks.takeWhile
        (fun lvl => !(decide (cap < lvl.price))))) := by
    rw [fokAvail, hfilter, pred_le_eq_not_lt]
  rw [precheck_fok]
  rw [fokLevels_iff _ _ hpos qty, ← havail]
  constructor
  · rintro ⟨_, hle⟩
    linarith
  · intro hle
    refine ⟨?_, by linarith⟩
    intro hcon
    rw [havail, hcon] at hle
    simp only [sumRem] at hle
    linarith

lemma precheck_iff_sell (book : OrderBook) (cap qty : ℚ) (hq : 0 < qty)
    (hpos : ∀ lvl ∈ book.bids, ∀ o ∈ lvl.queue, 0 < o.remaining)
    (hsort : (book.bids.map PriceLevel.price).Sorted (· > ·)) :
    (precheck_fok book Side.sell (some cap) qty = true ↔
      qty ≤ fokAvail book Side.sell cap) := by
  have hfilter : book.bids.filter (fun lvl => decide (cap ≤ lvl.price)) =
      book.bids.takeWhile (fun lvl => decide (cap ≤ lvl.price)) := by
    apply filter_eq_takeWhile _ (fun a b : PriceLevel => a.price > b.price)
    · exact (List.pairwise_map.mp hsort)
    · intro a b hr hb
      simp only [decide_eq_true_eq] at hb ⊢
      linarith
  have havail : fokAvail book Side.sell cap =
      sumRem (flattenQ (book.bids.takeWhile
        (fun lvl => !(decide (lvl.price < cap))))) := by
    rw [fokAvail, hfilter, pred_ge_eq_not_lt]
  rw [precheck_fok]
  rw [fokLevels_iff _ _ hpos qty, ← havail]
  constructor
  · rintro ⟨_, hle⟩
    linarith
  · intro hle
    refine ⟨?_, by linarith⟩
    intro hcon
    rw [havail, hcon] at hle
    simp only [sumRem] at hle
    linarith

lemma matchSide_full_avail_buy (book : OrderBook) (inc : Order) (cap : ℚ)
    (ht : inc.type = OrderType.fok) (hp : inc.price = some cap)
    (hs : inc.side = Side.buy) (h0 : 0 ≤ inc.remaining)
    (hsort : (book.asks.map PriceLevel.price).Sorted (· < ·))
    (hle : inc.remaining ≤ fokAvail book Side.buy cap) :
    (matchSide inc inc.remaining book.last_trade_price book.asks).rem = 0 := by
  apply matchSide_full inc book.asks inc.remaining book.last_trade_price h0
  rw [crossable_pred_buy inc cap ht hp hs]
  have hfilter : book.asks.filter (fun lvl => decide (lvl.price ≤ cap)) =
      book.asks.takeWhile (fun lvl => decide (lvl.price ≤ cap)) := by
    apply filter_eq_takeWhile _ (fun a b : PriceLevel => a.price < b.price)
    · exact (List.pairwise_map.mp hsort)
    · intro a b hr hb
      simp only [decide_eq_true_eq] at hb ⊢
      linarith
  rw [fokAvail, hfilter] at hle
  exact hle

lemma matchSide_full_avail_sell (book : OrderBook) (inc : Order) (cap : ℚ)
    (ht : inc.type = OrderType.fok) (hp : inc.price = some cap)
    (hs : inc.side = Side.sell) (h0 : 0 ≤ inc.remaining)
    (hsort : (book.bids.map PriceLevel.price).Sorted (· > ·))
    (hle : inc.remaining ≤ fokAvail book Side.sell cap) :
    (matchSide inc inc.remaining book.last_trade_price book.bids).rem = 0 := by
  apply matchSide_full inc book.bids inc.remaining book.last_trade_price h0
  rw [crossable_pred_sell inc cap ht hp hs]
  have hfilter : book.bids.filter (fun lvl => decide (cap ≤ lvl.price)) =
      book.bids.takeWhile (fun lvl => decide (cap ≤ lvl.price)) := by
    apply filter_eq_takeWhile _ (fun a b : PriceLevel => a.price > b.price)
    · exact (List.pairwise_map.mp hsort)
    · intro a b hr hb
      simp only [decide_eq_true_eq] at hb ⊢
      linarith
  rw [fokAvail, hfilter] at hle
  exact hle

lemma getBook_next (st : EngineState) (n : Nat) (sym : String) :
    getBook { st with next_id := n } sym = getBook st sym := rfl

/-! ### Claim C3: FOK fills fully iff enough crossable liquidity -/

/-- **C3** — A FOK submit (with a limit price) fills its full quantity
exactly when the summed remaining quantity on the opposite side at
prices crossable under the limit price (levels at exactly the cap
included — `fokAvail`) is at least the order's quantity; otherwise the
submit returns the accepted order untouched (`filled = 0`) with an
empty trade list and the engine state — books included — exactly as it
was after book creation and id minting.  Hypotheses: positive quantity,
and the book invariants (positive resting remainings, opposite side
sorted best-first). -/
theorem fok_full_fill_iff (st : EngineState) (req : OrderRequest) (cap : ℚ)
    (ht : req.type = OrderType.fok) (hp : req.price = some cap)
    (hq : 0 < req.quantity)
    (hpos : ∀ lvl ∈ oppLevels (getBook (ensure_book st req.symbol) req.symbol)
        req.side, ∀ o ∈ lvl.queue, 0 < o.remaining)
    (hsort : match req.side with
      | Side.buy =>
        (((getBook (ensure_book st req.symbol) req.symbol).asks.map
          PriceLevel.price).Sorted (· < ·))
      | Side.sell =>
        (((getBook (ensure_book st req.symbol) req.symbol).bids.map
          PriceLevel.price).Sorted (· > ·))) :
    (req.quantity ≤
        fokAvail (getBook (ensure_book st req.symbol) req.symbol) req.side cap →
      ∃ st1 o tr, submit_order st req = Except.ok (st1, o, tr) ∧
        o.quantity = req.quantity ∧ o.remaining = 0) ∧
    (fokAvail (getBook (ensure_book st req.symbol) req.symbol) req.side cap <
        req.quantity →
      ∃ o, submit_order st req =
          Except.ok ({ ensure_book st req.symbol with
            next_id := (ensure_book st req.symbol).next_id + 1 }, o, []) ∧
        o.quantity = req.quantity ∧ o.remaining = req.quantity) := by
  cases hside : req.side with
  | buy =>
    rw [hside] at hsort
    simp only at hsort
    simp only [oppLevels, hside] at hpos
    constructor
    · intro hle
      have hpre : precheck_fok (getBook (ensure_book st req.symbol) req.symbol)
          Side.buy (some cap) req.quantity = true :=
        (precheck_iff_buy _ cap req.quantity hq hpos hsort).mpr hle
      have hrem0 : ((getBook (ensure_book st req.symbol) req.symbol).matchOrder
          (mkOrder (ensure_book st req.symbol) req)).2.1.remaining = 0 := by
        simp only [OrderBook.matchOrder, mkOrder, hside]
        exact matchSide_full_avail_buy _ _ cap ht hp rfl (le_of_lt hq) hsort hle
      simp only [submit_order, mkOrder, ht, hside, isTriggerType, hp] at hrem0 ⊢
      simp only [getBook_next, Bool.false_eq_true, if_false, true_and, hpre,
        Bool.true_eq_false, and_false] at hrem0 ⊢
      rw [if_neg (by rw [hrem0]; exact lt_irrefl 0)]
      exact ⟨_, _, _, rfl, rfl, hrem0⟩
    · intro hlt
      have hpre : precheck_fok (getBook (ensure_book st req.symbol) req.symbol)
          Side.buy (some cap) req.quantity = false := by
        rw [← Bool.not_eq_true]
        intro hcon
        have := (precheck_iff_buy _ cap req.quantity hq hpos hsort).mp hcon
        linarith
      simp only [submit_order, mkOrder, ht, hside, isTriggerType, hp]
      simp only [getBook_next, Bool.false_eq_true, if_false, true_and, hpre,
        eq_self_iff_true, if_true]
      exact ⟨_, rfl, rfl, rfl⟩
  | sell =>
    rw [hside] at hsort
    simp only at hsort
    simp only [oppLevels, hside] at hpos
    constructor
    · intro hle
      have hpre : precheck_fok (getBook (ensure_book st req.symbol) req.symbol)
          Side.sell (some cap) req.quantity = true :=
        (precheck_iff_sell _ cap req.quantity hq hpos hsort).mpr hle
      have hrem0 : ((getBook (ensure_book st req.symbol) req.symbol).matchOrder
          (mkOrder (ensure_book st req.symbol) req)).2.1.remaining = 0 := by
        simp only [OrderBook.matchOrder, mkOrder, hside]
        exact matchSide_full_avail_sell _ _ cap ht hp rfl (le_of_lt hq) hsort hle
      simp only [submit_order, mkOrder, ht, hside, isTriggerType, hp] at hrem0 ⊢
      simp only [getBook_next, Bool.false_eq_true, if_false, true_and, hpre,
        Bool.true_eq_false, and_false] at hrem0 ⊢
      rw [if_neg (by rw [hrem0]; exact lt_irrefl 0)]
      exact ⟨_, _, _, rfl, rfl, hrem0⟩
    · intro hlt
      have hpre : precheck_fok (getBook (ensure_book st req.symbol) req.symbol)
          Side.sell (some cap) req.quantity = false := by
        rw [← Bool.not_eq_true]
        intro hcon
        have := (precheck_iff_sell _ cap req.quantity hq hpos hsort).mp hcon
        linarith
      simp only [submit_order, mkOrder, ht, hside, isTriggerType, hp]
      simp only [getBook_next, Bool.false_eq_true, if_false, true_and, hpre,
        eq_self_iff_true, if_true]
      exact ⟨_, rfl, rfl, rfl⟩

/-- Witness for C3: exactly-available liquidity at the cap price. -/
theorem fok_full_fill_iff_witness :
    c3Req.type = OrderType.fok ∧ c3Req.price = some 100 ∧ 0 < c3Req.quantity ∧
    (∀ lvl ∈ oppLevels (getBook (ensure_book c3State c3Req.symbol) c3Req.symbol)
        c3Req.side, ∀ o ∈ lvl.queue, 0 < o.remaining) ∧
    (match c3Req.side with
      | Side.buy =>
        (((getBook (ensure_book c3State c3Req.symbol) c3Req.symbol).asks.map
          PriceLevel.price).Sorted (· < ·))
      | Side.sell =>
        (((getBook (ensure_book c3State c3Req.symbol) c3Req.symbol).bids.map
          PriceLevel.price).Sorted (· > ·))) ∧
    ((c3Req.quantity ≤
        fokAvail (getBook (ensure_book c3State c3Req.symbol) c3Req.symbol)
          c3Req.side 100 →
      ∃ st1 o tr, submit_order c3State c3Req = Except.ok (st1, o, tr) ∧
        o.quantity = c3Req.quantity ∧ o.remaining = 0) ∧
    (fokAvail (getBook (ensure_book c3State c3Req.symbol) c3Req.symbol)
        c3Req.side 100 < c3Req.quantity →
      ∃ o, submit_order c3State c3Req =
          Except.ok ({ ensure_book c3State c3Req.symbol with
            next_id := (ensure_book c3State c3Req.symbol).next_id + 1 }, o, []) ∧
        o.quantity = c3Req.quantity ∧ o.remaining = c3Req.quantity)) :=
  ⟨by decide, by decide, by decide, by decide,
    by
      show (((getBook (ensure_book c3State c3Req.symbol) c3Req.symbol).asks.map
        PriceLevel.price).Sorted (· < ·))
      decide,
    fok_full_fill_iff c3State c3Req 100 (by decide) (by decide) (by decide)
      (by decide)
      (by
        show (((getBook (ensure_book c3State c3Req.symbol) c3Req.symbol).asks.map
          PriceLevel.price).Sorted (· < ·))
        decide)⟩

/-! ### Claim C8: `snapshot_l2` -/

lemma snapSide_length (depth : Nat) (ls : List PriceLevel) :
    ∀ count, count < depth → (snapSide depth count ls).length ≤ depth - count := by
  induction ls with
  | nil => intro count _; simp [snapSide]
  | cons lvl rest ih =>
    intro count hc
    by_cases hq : 0 < sumRem lvl.queue
    · by_cases hd : depth ≤ count + 1
      · simp only [snapSide, if_pos hq, if_pos hd, List.length_cons,
          List.length_nil]
        omega
      · simp only [snapSide, if_pos hq, if_neg hd, List.length_cons]
        have := ih (count + 1) (by omega)
        omega
    · have hd : ¬ depth ≤ count := by omega
      simp only [snapSide, if_neg hq, if_neg hd]
      exact ih count hc

lemma snapSide_mem (depth : Nat) (ls : List PriceLevel) :
    ∀ count pq, pq ∈ snapSide depth count ls →
      ∃ lvl ∈ ls, pq.1 = lvl.price ∧ pq.2 = quantize_8 (sumRem lvl.queue) ∧
        0 < sumRem lvl.queue := by
  induction ls with
  | nil => intro count pq h; simp [snapSide] at h
  | cons lvl rest ih =>
    intro count pq h
    by_cases hq : 0 < sumRem lvl.queue
    · by_cases hd : depth ≤ count + 1
      · simp only [snapSide, if_pos hq, if_pos hd, List.mem_singleton] at h
        exact ⟨lvl, by simp, by simp [h], by simp [h], hq⟩
      · simp only [snapSide, if_pos hq, if_neg hd, List.mem_cons] at h
        rcases h with h | h
        · exact ⟨lvl, by simp, by simp [h], by simp [h], hq⟩
        · obtain ⟨l2, hl2, hrest⟩ := ih (count + 1) pq h
          exact ⟨l2, by simp [hl2], hrest⟩
    · by_cases hd : depth ≤ count
      · simp [snapSide, hq, hd] at h
      · simp only [snapSide, if_neg hq, if_neg hd] at h
        obtain ⟨l2, hl2, hrest⟩ := ih count pq h
        exact ⟨l2, by simp [hl2], hrest⟩

lemma snapSide_prices_sublist (depth : Nat) (ls : List PriceLevel) :
    ∀ count, ((snapSide depth count ls).map Prod.fst).Sublist
      (ls.map PriceLevel.price) := by
  induction ls with
  | nil => intro count; simp [snapSide]
  | cons lvl rest ih =>
    intro count
    by_cases hq : 0 < sumRem lvl.queue
    · by_cases hd : depth ≤ count + 1
      · simp only [snapSide, if_pos hq, if_pos hd, List.map_cons, List.map_nil]
        exact List.Sublist.cons₂ _ (List.nil_sublist _)
      · simp only [snapSide, if_pos hq, if_neg hd, List.map_cons]
        exact List.Sublist.cons₂ _ (ih (count + 1))
    · by_cases hd : depth ≤ count
      · simp only [snapSide, if_neg hq, if_pos hd, List.map_nil, List.map_cons]
        exact List.nil_sublist _
      · simp only [snapSide, if_neg hq, if_neg hd, List.map_cons]
        exact List.Sublist.cons _ (ih count)

/-- **C8 (amended)** — For every book and every depth ≥ 1,
`snapshot_l2(depth)` returns at most `depth` aggregated levels per
side, bids in descending and asks in ascending price order (given the
book-side sortedness invariant), each reported quantity the level's
summed remaining quantized to 8 decimal places, and levels with zero
(or negative) aggregated quantity skipped.  (The claim's `depth = 0`
case is false — see the counterexample — because the source checks
`len >= depth` only after appending.) -/
theorem snapshot_l2_bounds (book : OrderBook) (depth : Nat) (hd : 1 ≤ depth)
    (hbs : (book.bids.map PriceLevel.price).Sorted (· > ·))
    (has : (book.asks.map PriceLevel.price).Sorted (· < ·)) :
    (book.snapshot_l2 depth).1.length ≤ depth ∧
    (book.snapshot_l2 depth).2.length ≤ depth ∧
    (((book.snapshot_l2 depth).1.map Prod.fst).Sorted (· > ·)) ∧
    (((book.snapshot_l2 depth).2.map Prod.fst).Sorted (· < ·)) ∧
    (∀ pq ∈ (book.snapshot_l2 depth).1, ∃ lvl ∈ book.bids,
        pq.1 = lvl.price ∧ pq.2 = quantize_8 (sumRem lvl.queue) ∧
        0 < sumRem lvl.queue) ∧
    (∀ pq ∈ (book.snapshot_l2 depth).2, ∃ lvl ∈ book.asks,
        pq.1 = lvl.price ∧ pq.2 = quantize_8 (sumRem lvl.queue) ∧
        0 < sumRem lvl.queue) := by
  refine ⟨?_, ?_, ?_, ?_, ?_, ?_⟩
  · simpa using snapSide_length depth book.bids 0 (by omega)
  · simpa using snapSide_length depth book.asks 0 (by omega)
  · exact List.Pairwise.sublist (snapSide_prices_sublist depth book.bids 0) hbs
  · exact List.Pairwise.sublist (snapSide_prices_sublist depth book.asks 0) has
  · exact fun pq h => snapSide_mem depth book.bids 0 pq h
  · exact fun pq h => snapSide_mem depth book.asks 0 pq h

/-- **C8 counterexample** — at `depth = 0` the claim's "at most depth
levels per side" fails: on a book with one nonempty bid level,
`snapshot_l2 0` still emits that level, because the source appends
before checking `len(bids) >= depth`. -/
theorem snapshot_l2_depth_zero_cex :
    0 < (oneBidBook.snapshot_l2 0).1.length := by
  norm_num [OrderBook.snapshot_l2, snapSide, oneBidBook, sumRem]

/-- Witness for the amended C8 on a two-level bid book at depth 1:
only the best level is reported. -/
theorem snapshot_l2_bounds_witness :
    1 ≤ 1 ∧
    ((c8Book.bids.map PriceLevel.price).Sorted (· > ·)) ∧
    ((c8Book.asks.map PriceLevel.price).Sorted (· < ·)) ∧
    ((c8Book.snapshot_l2 1).1.length ≤ 1 ∧
      (c8Book.snapshot_l2 1).2.length ≤ 1 ∧
      (((c8Book.snapshot_l2 1).1.map Prod.fst).Sorted (· > ·)) ∧
      (((c8Book.snapshot_l2 1).2.map Prod.fst).Sorted (· < ·)) ∧
      (∀ pq ∈ (c8Book.snapshot_l2 1).1, ∃ lvl ∈ c8Book.bids,
          pq.1 = lvl.price ∧ pq.2 = quantize_8 (sumRem lvl.queue) ∧
          0 < sumRem lvl.queue) ∧
      (∀ pq ∈ (c8Book.snapshot_l2 1).2, ∃ lvl ∈ c8Book.asks,
          pq.1 = lvl.price ∧ pq.2 = quantize_8 (sumRem lvl.queue) ∧
          0 < sumRem lvl.queue)) :=
  ⟨by decide, by decide, by decide,
    snapshot_l2_bounds c8Book 1 (by decide) (by decide) (by decide)⟩

/-! ### Claim C2: the engine performs no request validation -/

lemma matchSide_nonpos (inc : Order) (ls : List PriceLevel) (rem : ℚ)
    (lp : Option ℚ) (h : ¬ 0 < rem) :
    matchSide inc rem lp ls = ⟨rem, ls, [], [], lp⟩ := by
  cases ls with
  | nil => simp [matchSide]
  | cons lvl rest => simp [matchSide, h]

lemma matchSide_nocross (inc : Order) (ls : List PriceLevel) (rem : ℚ)
    (lp : Option ℚ) (h : ∀ p, crossableAt inc p = false) :
    matchSide inc rem lp ls = ⟨rem, ls, [], [], lp⟩ := by
  cases ls with
  | nil => simp [matchSide]
  | cons lvl rest =>
    by_cases h1 : 0 < rem
    · simp [matchSide, h1, h lvl.price]
    · simp [matchSide, h1]

lemma crossableAt_none (inc : Order) (hm : inc.type ≠ OrderType.market)
    (hp : inc.price = none) : ∀ p, crossableAt inc p = false := by
  intro p
  simp [crossableAt, hm, hp]

lemma matchOrder_noop (book : OrderBook) (inc : Order)
    (h : matchSide inc inc.remaining book.last_trade_price
        (oppLevels book inc.side) = ⟨inc.remaining, oppLevels book inc.side, [], [],
          book.last_trade_price⟩) :
    book.matchOrder inc = (book, inc, []) := by
  cases hs : inc.side with
  | buy =>
    rw [hs] at h
    simp only [oppLevels] at h
    simp only [OrderBook.matchOrder, hs, h]
    simp
    rw [← hs]
  | sell =>
    rw [hs] at h
    simp only [oppLevels] at h
    simp only [OrderBook.matchOrder, hs, h]
    simp
    rw [← hs]

lemma ensure_book_look (st : EngineState) (sym : String) :
    alook (ensure_book st sym).books sym =
      some (getBook (ensure_book st sym) sym) := by
  unfold ensure_book getBook
  by_cases h : (alook st.books sym).isSome
  · rw [if_pos h]
    cases hb : alook st.books sym with
    | none => rw [hb] at h; simp at h
    | some b => simp [hb]
  · rw [if_neg h]
    simp only [alook_append_single]
    cases hb : alook st.books sym with
    | none => simp
    | some b => rw [hb] at h; simp at h

lemma mkOrder_type (st : EngineState) (req : OrderRequest) :
    (mkOrder st req).type = req.type := rfl

lemma mkOrder_side (st : EngineState) (req : OrderRequest) :
    (mkOrder st req).side = req.side := rfl

lemma mkOrder_price (st : EngineState) (req : OrderRequest) :
    (mkOrder st req).price = req.price := rfl

lemma mkOrder_quantity (st : EngineState) (req : OrderRequest) :
    (mkOrder st req).quantity = req.quantity := rfl

lemma mkOrder_remaining (st : EngineState) (req : OrderRequest) :
    (mkOrder st req).remaining = req.quantity := rfl

lemma aset_get_look {α : Type} (l : List (String × α)) (k : String) (v : α)
    (hv : alook l k = some v) : ∀ s, alook (aset l k v) s = alook l s := by
  intro s
  rw [alook_aset]
  by_cases h : k = s
  · subst h
    rw [if_pos rfl]
    exact hv.symm
  · rw [if_neg h]

lemma ensure_book_triggers (st : EngineState) (sym : String) :
    (ensure_book st sym).triggers = st.triggers := by
  unfold ensure_book
  split <;> rfl

lemma ensure_book_recent (st : EngineState) (sym : String) :
    (ensure_book st sym).recent_trades = st.recent_trades := by
  unfold ensure_book
  split <;> rfl

lemma ensure_book_index (st : EngineState) (sym : String) :
    (ensure_book st sym).order_symbol_index = st.order_symbol_index := by
  unfold ensure_book
  split <;> rfl

/-- **C2 (amended)** — The engine performs no request validation.
(i) Every trigger-type submit (`stop`, `stop_limit`, `take_profit`) —
in particular one with a null `stop_price` or `take_profit_price`, or a
non-positive quantity — is accepted without error, appended to the
symbol's trigger list and indexed, with books and recent trades
untouched.  (ii) Every `market`/`limit`/`ioc`/`fok` submit with
non-positive quantity is accepted without error with an untouched order
(`filled = 0`) and no change to books, triggers, index or recent
trades.  (iii) The single input on which an error does surface is a
`limit` submit with a null price and positive quantity, which trips
`add_limit`'s assertion — not a validation check. -/
theorem submit_no_validation :
    (∀ st req, isTriggerType req.type = true →
      ∃ st1, submit_order st req =
          Except.ok (st1, mkOrder (ensure_book st req.symbol) req, []) ∧
        trigList st1 req.symbol =
          trigList st req.symbol ++ [mkOrder (ensure_book st req.symbol) req] ∧
        alook st1.order_symbol_index
          (mkOrder (ensure_book st req.symbol) req).order_id = some req.symbol ∧
        st1.books = (ensure_book st req.symbol).books ∧
        st1.recent_trades = st.recent_trades) ∧
    (∀ st req, (req.type = OrderType.market ∨ req.type = OrderType.limit ∨
        req.type = OrderType.ioc ∨ req.type = OrderType.fok) →
      req.quantity ≤ 0 →
      ∃ st1 o, submit_order st req = Except.ok (st1, o, []) ∧
        o.remaining = o.quantity ∧
        (∀ s, alook st1.books s = alook (ensure_book st req.symbol).books s) ∧
        st1.triggers = st.triggers ∧
        st1.order_symbol_index = st.order_symbol_index ∧
        st1.recent_trades = st.recent_trades) ∧
    (∀ st req, req.type = OrderType.limit → req.price = none →
      0 < req.quantity → submit_order st req = Except.error ()) := by
  refine ⟨?_, ?_, ?_⟩
  · intro st req htr
    simp only [submit_order, mkOrder_type, htr, if_true]
    refine ⟨_, rfl, ?_, ?_, rfl, ?_⟩
    · simp [trigList, alook_aset, ensure_book_triggers]
    · simp [alook_aset]
    · exact ensure_book_recent st req.symbol
  · intro st req hty hq
    have hnot : ¬ 0 < (mkOrder (ensure_book st req.symbol) req).remaining := by
      rw [mkOrder_remaining]
      exact not_lt.mpr hq
    have hnoop : (getBook (ensure_book st req.symbol) req.symbol).matchOrder
        (mkOrder (ensure_book st req.symbol) req) =
        ((getBook (ensure_book st req.symbol) req.symbol),
          mkOrder (ensure_book st req.symbol) req, []) :=
      matchOrder_noop _ _ (matchSide_nonpos _ _ _ _ hnot)
    have hbooks : ∀ s, alook (aset (ensure_book st req.symbol).books req.symbol
        (getBook (ensure_book st req.symbol) req.symbol)) s =
        alook (ensure_book st req.symbol).books s :=
      aset_get_look _ _ _ (ensure_book_look st req.symbol)
    have htrig := ensure_book_triggers st req.symbol
    have hidx := ensure_book_index st req.symbol
    have hrec := ensure_book_recent st req.symbol
    rcases hty with h | h | h | h
    · simp only [submit_order, getBook_next, mkOrder_type, h, isTriggerType,
        Bool.false_eq_true, if_false, reduceCtorEq, false_and]
      rw [hnoop]
      simp only [record_trades]
      rw [if_neg hnot]
      exact ⟨_, _, rfl, rfl, hbooks, htrig, hidx, hrec⟩
    · simp only [submit_order, getBook_next, mkOrder_type, h, isTriggerType,
        Bool.false_eq_true, if_false, reduceCtorEq, false_and]
      rw [hnoop]
      simp only [record_trades]
      rw [if_neg hnot]
      exact ⟨_, _, rfl, rfl, hbooks, htrig, hidx, hrec⟩
    · simp only [submit_order, getBook_next, mkOrder_type, h, isTriggerType,
        Bool.false_eq_true, if_false, reduceCtorEq, false_and]
      rw [hnoop]
      simp only [record_trades]
      rw [if_neg hnot]
      exact ⟨_, _, rfl, rfl, hbooks, htrig, hidx, hrec⟩
    · cases hpre : precheck_fok (getBook (ensure_book st req.symbol) req.symbol)
          req.side req.price req.quantity with
      | false =>
        simp only [submit_order, getBook_next, mkOrder_type, mkOrder_side,
          mkOrder_price, mkOrder_quantity, h, isTriggerType,
          Bool.false_eq_true, if_false, hpre, true_and, eq_self_iff_true,
          if_true]
        exact ⟨_, _, rfl, rfl, fun s => rfl, htrig, hidx, hrec⟩
      | true =>
        simp only [submit_order, getBook_next, mkOrder_type, mkOrder_side,
          mkOrder_price, mkOrder_quantity, h, isTriggerType,
          Bool.false_eq_true, if_false, hpre, true_and, Bool.true_eq_false,
          if_false]
        rw [hnoop]
        simp only [record_trades]
        rw [if_neg hnot]
        exact ⟨_, _, rfl, rfl, hbooks, htrig, hidx, hrec⟩
  · intro st req hty hpr hq
    have hnoop : (getBook (ensure_book st req.symbol) req.symbol).matchOrder
        (mkOrder (ensure_book st req.symbol) req) =
        ((getBook (ensure_book st req.symbol) req.symbol),
          mkOrder (ensure_book st req.symbol) req, []) := by
      apply matchOrder_noop
      apply matchSide_nocross
      apply crossableAt_none
      · rw [mkOrder_type, hty]
        intro hcon
        exact OrderType.noConfusion hcon
      · rw [mkOrder_price, hpr]
    simp only [submit_order, getBook_next, mkOrder_type, isTriggerType, hty,
      Bool.false_eq_true, if_false, reduceCtorEq, false_and]
    rw [hnoop]
    simp only [record_trades]
    rw [if_pos (by rw [mkOrder_remaining]; exact hq),
      if_pos (by rw [mkOrder_type, hty])]
    simp only [OrderBook.add_limit, mkOrder_price, hpr]

/-- **C2 counterexample** — a `stop` submit with `stop_price = null`
(the claim demands a surfaced validation error and no state change): the
engine instead returns `ok` — no error of any kind — and the state has
changed: the order now pends in the `S` trigger list and is indexed. -/
theorem submit_validation_cex :
    (submit_order initEngine badStopReq).toOption.map
      (fun r => (trigList r.1 ("S"), alook r.1.order_symbol_index ("ord_1"),
        r.2.2)) =
    some ([⟨"ord_1", "S", Side.buy, OrderType.stop, 1, 1, none, none, none⟩],
      some ("S"), []) := by
  decide

/-- Witness for the amended C2: a null-`stop_price` stop submit, a
zero-quantity market submit, and a null-price limit submit. -/
theorem submit_no_validation_witness :
    (isTriggerType badStopReq.type = true) ∧
    (∃ st1, submit_order initEngine badStopReq =
        Except.ok (st1, mkOrder (ensure_book initEngine badStopReq.symbol)
          badStopReq, []) ∧
      trigList st1 badStopReq.symbol =
        trigList initEngine badStopReq.symbol ++
          [mkOrder (ensure_book initEngine badStopReq.symbol) badStopReq] ∧
      alook st1.order_symbol_index
        (mkOrder (ensure_book initEngine badStopReq.symbol)
          badStopReq).order_id = some badStopReq.symbol ∧
      st1.books = (ensure_book initEngine badStopReq.symbol).books ∧
      st1.recent_trades = initEngine.recent_trades) ∧
    (c2ZeroReq.type = OrderType.market ∨ c2ZeroReq.type = OrderType.limit ∨
      c2ZeroReq.type = OrderType.ioc ∨ c2ZeroReq.type = OrderType.fok) ∧
    c2ZeroReq.quantity ≤ 0 ∧
    (∃ st1 o, submit_order initEngine c2ZeroReq = Except.ok (st1, o, []) ∧
      o.remaining = o.quantity ∧
      (∀ s, alook st1.books s =
        alook (ensure_book initEngine c2ZeroReq.symbol).books s) ∧
      st1.triggers = initEngine.triggers ∧
      st1.order_symbol_index = initEngine.order_symbol_index ∧
      st1.recent_trades = initEngine.recent_trades) ∧
    c2LimReq.type = OrderType.limit ∧ c2LimReq.price = none ∧
    0 < c2LimReq.quantity ∧
    submit_order initEngine c2LimReq = Except.error () :=
  ⟨by decide,
    submit_no_validation.1 initEngine badStopReq (by decide),
    by decide, by decide,
    submit_no_validation.2.1 initEngine c2ZeroReq (by decide) (by decide),
    by decide, by decide, by decide,
    submit_no_validation.2.2 initEngine c2LimReq (by decide) (by decide)
      (by decide)⟩

/-! ### Claim C9: `save_state` writes resting orders only -/

lemma savedOrder_id (o : Order) : (savedOrder o).order_id = o.order_id := rfl

lemma savedOrder_type (o : Order) : (savedOrder o).type = o.type := rfl

lemma map_savedOrder_ids (l : List Order) :
    (l.map savedOrder).map Order.order_id = l.map Order.order_id := by
  rw [List.map_map]
  rfl

lemma foldl_triggers_invariant {β : Type} (f : EngineState → β → EngineState) :
    ∀ (l : List β) (s : EngineState),
      (∀ s2 b, b ∈ l → (f s2 b).triggers = s2.triggers) →
      (l.foldl f s).triggers = s.triggers := by
  intro l
  induction l with
  | nil => intro s _; rfl
  | cons b rest ih =>
    intro s hf
    rw [List.foldl_cons, ih _ (fun s2 b2 hb2 => hf s2 b2 (by simp [hb2])),
      hf s b (by simp)]

lemma loadOrder_triggers (st : EngineState) (sym : String) (od : Order)
    (h : od.type = OrderType.limit) :
    (loadOrder st sym od).triggers = st.triggers := by
  unfold loadOrder
  by_cases h1 : od.type = OrderType.limit ∧ 0 < od.remaining ∧ od.price ≠ none
  · rw [if_pos h1]
    cases hb : (getBook st sym).add_limit od with
    | none => rfl
    | some b1 => rfl
  · rw [if_neg h1, if_neg (by rw [h]; simp [isTriggerType])]

lemma load_state_triggers (st0 : EngineState) (data : Saved)
    (h : ∀ e ∈ data.open_orders, ∀ o ∈ e.2, o.type = OrderType.limit) :
    (load_state st0 data).triggers = st0.triggers := by
  unfold load_state
  rw [foldl_triggers_invariant]
  · rw [foldl_triggers_invariant]
    intro s2 e he
    rw [foldl_triggers_invariant]
    · exact ensure_book_triggers s2 e.1
    · intro s3 od hod
      exact loadOrder_triggers s3 e.1 od (h e he od hod)
  · intro s2 e _
    rfl

/-- **C9** — `save_state` lists under `open_orders` exactly the orders
resting on some book level (for each book entry the saved ids are
precisely the resting ids, and every book entry is saved); orders
pending in a trigger list are not written (given the invariant that a
pending order never also rests); hence a save followed by a load into a
fresh engine reconstructs no pending stop, stop_limit or take_profit
orders (given the invariant that resting orders are limit orders). -/
theorem save_state_resting_only (st : EngineState)
    (h1 : ∀ e ∈ st.books, ∀ o ∈ restingOrders e.2, o.type = OrderType.limit)
    (h2 : ∀ e ∈ st.triggers, ∀ o ∈ e.2, restsSomewhere st o.order_id = false) :
    (∀ e ∈ st.books,
        (e.1, (restingOrders e.2).map savedOrder) ∈ (save_state st).open_orders) ∧
    (∀ e2 ∈ (save_state st).open_orders, ∃ b, (e2.1, b) ∈ st.books ∧
        e2.2.map Order.order_id = (restingOrders b).map Order.order_id) ∧
    (∀ e ∈ st.triggers, ∀ o ∈ e.2, ∀ e2 ∈ (save_state st).open_orders,
        o.order_id ∉ e2.2.map Order.order_id) ∧
    (load_state initEngine (save_state st)).triggers = [] := by
  refine ⟨?_, ?_, ?_, ?_⟩
  · intro e he
    unfold save_state
    exact List.mem_map.mpr ⟨e, he, rfl⟩
  · intro e2 he2
    unfold save_state at he2
    obtain ⟨e, he, heq⟩ := List.mem_map.mp he2
    refine ⟨e.2, ?_, ?_⟩
    · have : e2.1 = e.1 := by rw [← heq]
      rw [this]
      exact he
    · have : e2.2 = (restingOrders e.2).map savedOrder := by rw [← heq]
      rw [this, map_savedOrder_ids]
  · intro e he o ho e2 he2 hmem
    unfold save_state at he2
    obtain ⟨eb, heb, heq⟩ := List.mem_map.mp he2
    have hids : e2.2.map Order.order_id =
        (restingOrders eb.2).map Order.order_id := by
      have : e2.2 = (restingOrders eb.2).map savedOrder := by rw [← heq]
      rw [this, map_savedOrder_ids]
    rw [hids] at hmem
    obtain ⟨o2, ho2, hid2⟩ := List.mem_map.mp hmem
    have : restsSomewhere st o.order_id = true := by
      unfold restsSomewhere
      rw [List.any_eq_true]
      refine ⟨eb, heb, ?_⟩
      rw [List.any_eq_true]
      exact ⟨o2, ho2, by simp [hid2]⟩
    rw [h2 e he o ho] at this
    exact Bool.false_ne_true this
  · rw [load_state_triggers]
    · rfl
    · intro e he o ho
      unfold save_state at he
      obtain ⟨eb, heb, heq⟩ := List.mem_map.mp he
      have : e.2 = (restingOrders eb.2).map savedOrder := by rw [← heq]
      rw [this] at ho
      obtain ⟨o2, ho2, hso⟩ := List.mem_map.mp ho
      rw [← hso, savedOrder_type]
      exact h1 eb heb o2 ho2

/-- Witness for C9 on a state holding one resting limit order and one
pending stop order. -/
theorem save_state_resting_only_witness :
    (∀ e ∈ saveDemo.books, ∀ o ∈ restingOrders e.2,
        o.type = OrderType.limit) ∧
    (∀ e ∈ saveDemo.triggers, ∀ o ∈ e.2,
        restsSomewhere saveDemo o.order_id = false) ∧
    ((∀ e ∈ saveDemo.books, (e.1, (restingOrders e.2).map savedOrder) ∈
        (save_state saveDemo).open_orders) ∧
      (∀ e2 ∈ (save_state saveDemo).open_orders, ∃ b,
          (e2.1, b) ∈ saveDemo.books ∧
          e2.2.map Order.order_id = (restingOrders b).map Order.order_id) ∧
      (∀ e ∈ saveDemo.triggers, ∀ o ∈ e.2,
          ∀ e2 ∈ (save_state saveDemo).open_orders,
          o.order_id ∉ e2.2.map Order.order_id) ∧
      (load_state initEngine (save_state saveDemo)).triggers = []) :=
  ⟨by decide, by decide,
    save_state_resting_only saveDemo (by decide) (by decide)⟩

/-! ### Claims C4-C7: engine bugs demonstrated on concrete runs -/

/-- **C6 (bug)** — cancelling a pending trigger order: `submit_order`
also writes trigger orders into `order_symbol_index`, so `cancel_order`
resolves the symbol, attempts book removal (which finds nothing) and
returns `None` without ever reaching its trigger-list scan; the order
stays pending.  The claim says cancel removes and returns it. -/
theorem cancel_pending_trigger_bug :
    (cancel_order pendingStop ("ord_1")).2 = none ∧
    trigList (cancel_order pendingStop ("ord_1")).1 ("U") =
      [⟨"ord_1", "U", Side.buy, OrderType.stop, 1, 1, none, some 50, none⟩] ∧
    pendsSomewhere (cancel_order pendingStop ("ord_1")).1 ("ord_1") = true := by
  decide

/-- Lift an evaluated `submit_order` through the ok-branch of `subOk`. -/
lemma subOk_of_ok (st st2 : EngineState) (o : Order) (tr : List Trade)
    (req : OrderRequest)
    (h : submit_order st req = Except.ok (st2, o, tr)) : subOk st req = st2 := by
  unfold subOk
  rw [h]

/-- The state after `sell limit 1 @ 100` on a fresh engine: `ord_1`
rests as the only ask. -/
lemma s1S_eval :
    subOk initEngine ⟨"S", Side.sell, OrderType.limit, 1, some 100, none, none⟩ =
    ⟨[("S", ⟨"S", [],
        [⟨100, [⟨"ord_1", "S", Side.sell, OrderType.limit, 1, 1, some 100, none, none⟩]⟩],
        [⟨"ord_1", Side.sell, 100⟩], none⟩)],
      [("ord_1", "S")], [], [], 2, -1, 5/2, 1000⟩ := by
  rfl

/-- The `buy market 1` submit against the resting ask: full sweep, one
print `tr_3` at 100 with fees `-0.01` (maker rebate) and `0.025`. -/
lemma sFilled_sub2 :
    submit_order
      ⟨[("S", ⟨"S", [],
          [⟨100, [⟨"ord_1", "S", Side.sell, OrderType.limit, 1, 1, some 100, none, none⟩]⟩],
          [⟨"ord_1", Side.sell, 100⟩], none⟩)],
        [("ord_1", "S")], [], [], 2, -1, 5/2, 1000⟩
      ⟨"S", Side.buy, OrderType.market, 1, none, none, none⟩ =
    Except.ok
      (⟨[("S", ⟨"S", [], [], [], some 100⟩)], [("ord_1", "S")], [],
        [("S", [⟨"tr_3", "S", 100, 1, Side.buy, "ord_1", "ord_2", -(1/100), 1/40⟩])],
        4, -1, 5/2, 1000⟩,
       ⟨"ord_2", "S", Side.buy, OrderType.market, 1, 0, none, none, none⟩,
       [⟨"tr_3", "S", 100, 1, Side.buy, "ord_1", "ord_2", -(1/100), 1/40⟩]) := by
  have hs2 : ("ord_" ++ toString (2 : Nat)) = "ord_2" := rfl
  have hs3 : ("tr_" ++ toString (3 : Nat)) = "tr_3" := rfl
  norm_num [submit_order, mkOrder, ensure_book, getBook, setBook, alook, aset,
    isTriggerType, precheck_fok, fokLevels, OrderBook.matchOrder, matchSide,
    consumeQueue, crossableAt, record_trades, fees, quantize_8, pushRecent,
    recentList, trigList, min_def, hs2, hs3]
  exact fun h => absurd h (by decide)

/-- The seed state: the resting ask is swept by `buy market 1`; one
print `tr_3` at 100, empty book, stale index entry for `ord_1`. -/
lemma sFilled_eval :
    sFilled = ⟨[("S", ⟨"S", [], [], [], some 100⟩)], [("ord_1", "S")], [],
      [("S", [⟨"tr_3", "S", 100, 1, Side.buy, "ord_1", "ord_2", -(1/100), 1/40⟩])],
      4, -1, 5/2, 1000⟩ := by
  unfold sFilled
  rw [s1S_eval]
  exact subOk_of_ok _ _ _ _ _ sFilled_sub2

/-- Submitting the `buy stop 1, sp = 100, price = 105` after the seed
stores it as `ord_4` in triggers and the engine index. -/
lemma stopSub_eval :
    subOk sFilled ⟨"S", Side.buy, OrderType.stop, 1, some 105, some 100, none⟩ =
    ⟨[("S", ⟨"S", [], [], [], some 100⟩)],
      [("ord_1", "S"), ("ord_4", "S")],
      [("S", [⟨"ord_4", "S", Side.buy, OrderType.stop, 1, 1, some 105, some 100, none⟩])],
      [("S", [⟨"tr_3", "S", 100, 1, Side.buy, "ord_1", "ord_2", -(1/100), 1/40⟩])],
      5, -1, 5/2, 1000⟩ := by
  rw [sFilled_eval]
  rfl

/-- The trigger scan activates `ord_4` (`last = 100 ≥ 100`), removes it
from the pending list, and — since it is still a `stop` — the
activation discards the residual. -/
lemma stopRun_eval :
    stopRun = Except.ok
      ⟨[("S", ⟨"S", [], [], [], some 100⟩)],
        [("ord_1", "S"), ("ord_4", "S")],
        [("S", [])],
        [("S", [⟨"tr_3", "S", 100, 1, Side.buy, "ord_1", "ord_2", -(1/100), 1/40⟩])],
        5, -1, 5/2, 1000⟩ := by
  unfold stopRun
  rw [stopSub_eval]
  rfl

/-- The state after `buy limit 2 @ 100` on a fresh engine (symbol T). -/
lemma t1_eval :
    subOk initEngine ⟨"T", Side.buy, OrderType.limit, 2, some 100, none, none⟩ =
    ⟨[("T", ⟨"T",
        [⟨100, [⟨"ord_1", "T", Side.buy, OrderType.limit, 2, 2, some 100, none, none⟩]⟩],
        [], [⟨"ord_1", Side.buy, 100⟩], none⟩)],
      [("ord_1", "T")], [], [], 2, -1, 5/2, 1000⟩ := by
  rfl

/-- `sell market 1` takes 1 of the 2 resting at 100: partial maker
fill, print `tr_3`, bid quantity 1 remains. -/
lemma t2_sub :
    submit_order
      ⟨[("T", ⟨"T",
          [⟨100, [⟨"ord_1", "T", Side.buy, OrderType.limit, 2, 2, some 100, none, none⟩]⟩],
          [], [⟨"ord_1", Side.buy, 100⟩], none⟩)],
        [("ord_1", "T")], [], [], 2, -1, 5/2, 1000⟩
      ⟨"T", Side.sell, OrderType.market, 1, none, none, none⟩ =
    Except.ok
      (⟨[("T", ⟨"T",
          [⟨100, [⟨"ord_1", "T", Side.buy, OrderType.limit, 2, 1, some 100, none, none⟩]⟩],
          [], [⟨"ord_1", Side.buy, 100⟩], some 100⟩)],
        [("ord_1", "T")], [],
        [("T", [⟨"tr_3", "T", 100, 1, Side.sell, "ord_1", "ord_2", -(1/100), 1/40⟩])],
        4, -1, 5/2, 1000⟩,
       ⟨"ord_2", "T", Side.sell, OrderType.market, 1, 0, none, none, none⟩,
       [⟨"tr_3", "T", 100, 1, Side.sell, "ord_1", "ord_2", -(1/100), 1/40⟩]) := by
  have hs2 : ("ord_" ++ toString (2 : Nat)) = "ord_2" := rfl
  have hs3 : ("tr_" ++ toString (3 : Nat)) = "tr_3" := rfl
  norm_num [submit_order, mkOrder, ensure_book, getBook, setBook, alook, aset,
    isTriggerType, precheck_fok, fokLevels, OrderBook.matchOrder, matchSide,
    consumeQueue, crossableAt, record_trades, fees, quantize_8, pushRecent,
    recentList, trigList, min_def, hs2, hs3]
  exact fun h => absurd h (by decide)

/-- Submitting the price-less `sell take_profit 1, tp = 100` stores it
as `ord_4` in triggers and the engine index. -/
lemma t3_eval :
    subOk
      ⟨[("T", ⟨"T",
          [⟨100, [⟨"ord_1", "T", Side.buy, OrderType.limit, 2, 1, some 100, none, none⟩]⟩],
          [], [⟨"ord_1", Side.buy, 100⟩], some 100⟩)],
        [("ord_1", "T")], [],
        [("T", [⟨"tr_3", "T", 100, 1, Side.sell, "ord_1", "ord_2", -(1/100), 1/40⟩])],
        4, -1, 5/2, 1000⟩
      ⟨"T", Side.sell, OrderType.take_profit, 1, none, none, some 100⟩ =
    ⟨[("T", ⟨"T",
        [⟨100, [⟨"ord_1", "T", Side.buy, OrderType.limit, 2, 1, some 100, none, none⟩]⟩],
        [], [⟨"ord_1", Side.buy, 100⟩], some 100⟩)],
      [("ord_1", "T"), ("ord_4", "T")],
      [("T", [⟨"ord_4", "T", Side.sell, OrderType.take_profit, 1, 1, none, none, some 100⟩])],
      [("T", [⟨"tr_3", "T", 100, 1, Side.sell, "ord_1", "ord_2", -(1/100), 1/40⟩])],
      5, -1, 5/2, 1000⟩ := by
  rfl

/-- The trigger scan activates `ord_4` (`last = 100 ≥ 100`); the
activated order has no price and a non-market type, so it crosses
nothing: the bid survives untouched and the order is dropped. -/
lemma tpRun_eval :
    tpRun = Except.ok
      ⟨[("T", ⟨"T",
          [⟨100, [⟨"ord_1", "T", Side.buy, OrderType.limit, 2, 1, some 100, none, none⟩]⟩],
          [], [⟨"ord_1", Side.buy, 100⟩], some 100⟩)],
        [("ord_1", "T"), ("ord_4", "T")],
        [("T", [])],
        [("T", [⟨"tr_3", "T", 100, 1, Side.sell, "ord_1", "ord_2", -(1/100), 1/40⟩])],
        5, -1, 5/2, 1000⟩ := by
  unfold tpRun
  rw [t1_eval, subOk_of_ok _ _ _ _ _ t2_sub, t3_eval]
  rfl

/-- **C7 (bug)** — after `sell limit 1 @ 100` is fully filled by
`buy market 1`, the maker `ord_1` is popped from the book but
`order_symbol_index` still maps it to `S` while it neither rests nor
pends — the claimed invariant fails. -/
theorem order_symbol_index_stale_bug :
    alook sFilled.order_symbol_index ("ord_1") = some ("S") ∧
    restsSomewhere sFilled ("ord_1") = false ∧
    pendsSomewhere sFilled ("ord_1") = false := by
  rw [sFilled_eval]
  decide

/-- **C4 (bug)** — a triggered `buy stop 1, stop_price = 100,
price = 105` (order `ord_4`) is removed from the triggers list but its
type is never converted to `limit` (only the price-less stop → market
and the stop_limit → limit conversions exist), so `_submit_activated`
refuses to rest the residual: the order vanishes instead of resting at
105. -/
theorem stop_with_price_not_rested_bug :
    stopRun.toOption.map (fun s =>
      (trigList s ("S"), (getBook s ("S")).bids, (getBook s ("S")).asks,
        restsSomewhere s ("ord_4"), pendsSomewhere s ("ord_4"))) =
    some ([], [], [], false, false) := by
  rw [stopRun_eval]
  norm_num [Except.toOption, trigList, getBook, alook, restsSomewhere,
    pendsSomewhere, restingOrders, flattenQ]

/-- **C5 (bug)** — a triggered price-less `sell take_profit 1,
take_profit_price = 100` (order `ord_4`) is activated as-is;
`_crossable` treats the non-market type with `price = None` as never
crossable, so activation fills nothing although a bid of 1 @ 100 is
resting: the order is silently discarded, no trade prints. -/
theorem take_profit_activation_noop_bug :
    tpRun.toOption.map (fun s =>
      (trigList s ("T"), restsSomewhere s ("ord_4"),
        (getBook s ("T")).bids.map (fun lvl => (lvl.price, sumRem lvl.queue)),
        (recentList s ("T")).length)) =
    some ([], false, [(100, 1)], 1) := by
  rw [tpRun_eval]
  norm_num [Except.toOption, trigList, getBook, alook, restsSomewhere,
    restingOrders, flattenQ, sumRem, recentList]
  decide

end GQ
